import Mathlib

/-!
# Verification of the windowed-degree-graph core (`src/median_degree.py`)

A shallow embedding of the Venmo median-degree program.  Timestamps are
modelled as integers (seconds); `datetime.min` is modelled as `0`, so every
timestamp a real `datetime` can carry is `≥ datetime_min`.  Python's
`datetime - timedelta` raises `OverflowError` when the result would precede
`datetime.min`; `datetime_sub` models that raise as `none`, and
`within_time_window_checked` / `add_edge_checked` are the OverflowError-aware
transcriptions of `within_time_window` / `add_edge` (in both, the raise
happens before any mutation, so a raising call leaves the graph unchanged).
The total `within_time_window` / `add_edge` keep the subtraction unbounded;
`add_edge_checked_eq` shows the two agree whenever no subtraction underflows,
and since a raising `add_edge` mutates nothing, every program-reachable state
is also reachable through the total model, so universal invariants proved
over `buildGraph` cover every program-reachable state.  Python dicts are
modelled as association lists in insertion order; for the degree histogram
(`degree_buckets`, a `defaultdict(int)` keyed by small consecutive positive
ints, never deleted from) CPython 2's hash-table iteration coincides with
insertion order, and the keys are created in ascending order `1, 2, 3, …`,
so iteration order of the model matches the interpreter's.
-/

/-! ## Timestamp parsing (`Edge.__init__` via `datetime.strptime`)

`datetime.strptime(date_str, '%Y-%m-%dT%H:%M:%SZ')` matches the whole string
against a regex assembled from per-directive patterns (CPython 2 `_strptime`):
`%Y ↦ \d\d\d\d`, `%m ↦ 1[0-2]|0[1-9]|[1-9]`, `%d ↦ 3[01]|[12]\d|0[1-9]|[1-9]`,
`%H ↦ 2[0-3]|[0-1]\d|\d`, `%M ↦ [0-5]\d|\d`, `%S ↦ 6[0-1]|[0-5]\d|\d`,
compiled with IGNORECASE (so the literals `T`/`Z` also match `t`/`z`), and then
the `datetime` constructor re-checks ranges (year ≥ 1, second ≤ 59, day against
the month length).  Since every separator in the format is a non-digit and every
directive consumes only digits, a directive must consume exactly the maximal
digit run in front of it (one or two digits; four for the year), which is what
the model below does. -/

structure DateTime where
  year : Nat
  month : Nat
  day : Nat
  hour : Nat
  minute : Nat
  second : Nat
deriving DecidableEq

def digitVal (c : Char) : Nat := c.toNat - 48

def runVal (ds : List Char) : Nat := ds.foldl (fun a c => 10 * a + digitVal c) 0

/-- Literal characters of the format are matched case-insensitively
(`_strptime.TimeRE.compile` passes `IGNORECASE`). -/
def litMatch (pat c : Char) : Bool := c == pat || c == pat.toLower

def expectLit (pat : Char) : List Char → Option (List Char)
  | [] => none
  | c :: rest => if litMatch pat c then some rest else none

/-- A one- or two-digit numeric component whose value must lie in `[lo, hi]`:
the net effect of the `%m`/`%d`/`%H`/`%M`/`%S` regexes combined with the
`datetime` constructor's range checks. -/
def component (lo hi : Nat) (cs : List Char) : Option (Nat × List Char) :=
  let ds := cs.takeWhile Char.isDigit
  let rest := cs.dropWhile Char.isDigit
  let v := runVal ds
  if (ds.length = 1 ∨ ds.length = 2) ∧ lo ≤ v ∧ v ≤ hi then some (v, rest) else none

def isLeapYear (y : Nat) : Bool := y % 4 = 0 ∧ (y % 100 ≠ 0 ∨ y % 400 = 0)

def daysInMonth (y m : Nat) : Nat :=
  if m = 2 then (if isLeapYear y then 29 else 28)
  else if m = 4 ∨ m = 6 ∨ m = 9 ∨ m = 11 then 30
  else 31

/-- `datetime.strptime(s, '%Y-%m-%dT%H:%M:%SZ')`: `some` of the parsed
date/time, or `none` where Python raises `ValueError` (the spec's
`MalformedTimestamp`). -/
def parseTimestamp (s : String) : Option DateTime := do
  let cs := s.toList
  let ys := cs.takeWhile Char.isDigit
  let r0 := cs.dropWhile Char.isDigit
  if ¬ (ys.length = 4 ∧ 1 ≤ runVal ys) then none else
  let r1 ← expectLit '-' r0
  let (mo, r2) ← component 1 12 r1
  let r3 ← expectLit '-' r2
  let (d, r4) ← component 1 31 r3
  let r5 ← expectLit 'T' r4
  let (h, r6) ← component 0 23 r5
  let r7 ← expectLit ':' r6
  let (mi, r8) ← component 0 59 r7
  let r9 ← expectLit ':' r8
  let (sec, r10) ← component 0 59 r9
  let r11 ← expectLit 'Z' r10
  if r11 = [] ∧ d ≤ daysInMonth (runVal ys) mo then
    some ⟨runVal ys, mo, d, h, mi, sec⟩
  else none

/-- Modelled from the spec: the spec's "exact pattern `YYYY-MM-DDTHH:MM:SSZ`
(including the literal trailing `Z`)" — four-digit year, two-digit month, day,
hour, minute and second at fixed positions, uppercase literal separators, and
the values denoting a valid calendar date/time.  Stated from the spec's words,
to be compared with the code's `parseTimestamp`. -/
def matchesSpecPattern (s : String) : Bool :=
  match s.toList with
  | [y1, y2, y3, y4, '-', m1, m2, '-', d1, d2, 'T',
     h1, h2, ':', n1, n2, ':', s1, s2, 'Z'] =>
    ([y1, y2, y3, y4, m1, m2, d1, d2, h1, h2, n1, n2, s1, s2].all Char.isDigit) &&
    (let y := runVal [y1, y2, y3, y4]
     let mo := runVal [m1, m2]
     let d := runVal [d1, d2]
     decide (1 ≤ y) && decide (1 ≤ mo) && decide (mo ≤ 12) &&
     decide (1 ≤ d) && decide (d ≤ daysInMonth y mo) &&
     decide (runVal [h1, h2] ≤ 23) && decide (runVal [n1, n2] ≤ 59) &&
     decide (runVal [s1, s2] ≤ 59))
  | _ => false

/-! ## The graph (`VenmoGraph`) -/

structure Edge where
  v1 : String
  v2 : String
  created_time : Int
deriving DecidableEq

structure VenmoGraph where
  edges : List Edge
  degrees : List (String × Nat)
  degree_buckets : List (Nat × Int)
deriving DecidableEq

def VenmoGraph.empty : VenmoGraph := ⟨[], [], []⟩

/-- `self.window_seconds = 60`. -/
def window_seconds : Int := 60

/-- `datetime.min`, the least representable timestamp, modelled as second `0`. -/
def datetime_min : Int := 0

/-! ### Dict models
`degrees` is a plain dict (`String ↦ Nat`); `degree_buckets` is a
`defaultdict(int)` (`Nat ↦ Int`).  `dGet` returns `0` for an absent key — in
Python that read raises `KeyError`, but every `dGet` performed by the program
is on a key the graph invariant proves present. -/

def dMem (ds : List (String × Nat)) (v : String) : Bool :=
  ds.any (fun p => p.1 = v)

def dGet : List (String × Nat) → String → Nat
  | [], _ => 0
  | p :: rest, v => if p.1 = v then p.2 else dGet rest v

def dSet : List (String × Nat) → String → Nat → List (String × Nat)
  | [], v, x => [(v, x)]
  | p :: rest, v, x => if p.1 = v then (v, x) :: rest else p :: dSet rest v x

def dDel (ds : List (String × Nat)) (v : String) : List (String × Nat) :=
  ds.filter (fun p => p.1 ≠ v)

def alGet : List (Nat × Int) → Nat → Int
  | [], _ => 0
  | p :: rest, k => if p.1 = k then p.2 else alGet rest k

/-- `defaultdict` compound assignment `buckets[k] += x`: update the entry in
place, or create it (as `0 + x`) at the end of the insertion order. -/
def ddAdd : List (Nat × Int) → Nat → Int → List (Nat × Int)
  | [], k, x => [(k, x)]
  | p :: rest, k, x => if p.1 = k then (k, p.2 + x) :: rest else p :: ddAdd rest k x

/-! ### Degree bookkeeping (`_update_degrees_add` / `_update_degrees_remove`) -/

/-- One endpoint of `_update_degrees_add`, acting on `(degrees, degree_buckets)`. -/
def update_degrees_add_vertex :
    List (String × Nat) × List (Nat × Int) → String →
      List (String × Nat) × List (Nat × Int)
  | (degrees, buckets), vertex =>
    if ¬ dMem degrees vertex then
      (dSet degrees vertex 1, ddAdd buckets 1 1)
    else
      let degree := dGet degrees vertex
      (dSet degrees vertex (degree + 1),
       ddAdd (ddAdd buckets degree (-1)) (degree + 1) 1)

/-- `_update_degrees_add`: `for vertex in edge.vertices()`, i.e. `v1` then `v2`
in sequence (a self-loop passes through the same vertex twice). -/
def update_degrees_add_pair
    (st : List (String × Nat) × List (Nat × Int)) (edge : Edge) :
    List (String × Nat) × List (Nat × Int) :=
  update_degrees_add_vertex (update_degrees_add_vertex st edge.v1) edge.v2

def update_degrees_add (g : VenmoGraph) (edge : Edge) : VenmoGraph :=
  let st := update_degrees_add_pair (g.degrees, g.degree_buckets) edge
  { g with degrees := st.1, degree_buckets := st.2 }

/-- One endpoint of `_update_degrees_remove`:
`degree = degrees[v]; buckets[degree] -= 1; degrees[v] -= 1;
 if degrees[v] == 0: del degrees[v] else: buckets[degree - 1] += 1`. -/
def update_degrees_remove_vertex :
    List (String × Nat) × List (Nat × Int) → String →
      List (String × Nat) × List (Nat × Int)
  | (degrees, buckets), vertex =>
    let degree := dGet degrees vertex
    let buckets1 := ddAdd buckets degree (-1)
    let degrees1 := dSet degrees vertex (degree - 1)
    if dGet degrees1 vertex = 0 then (dDel degrees1 vertex, buckets1)
    else (degrees1, ddAdd buckets1 (degree - 1) 1)

def update_degrees_remove
    (st : List (String × Nat) × List (Nat × Int)) (edge : Edge) :
    List (String × Nat) × List (Nat × Int) :=
  update_degrees_remove_vertex (update_degrees_remove_vertex st edge.v1) edge.v2

/-! ### Eviction (`_remove_edges`) -/

/-- The loop of `_remove_edges`: scan the whole edge list in order, apply the
degree-remove updates to every edge at or below the threshold, and record
`start_index = index + 1` at each such edge. -/
def removeSweep (threshold_time : Int) :
    List Edge → List (String × Nat) × List (Nat × Int) → Nat → Nat →
      (List (String × Nat) × List (Nat × Int)) × Nat
  | [], st, _, start_index => (st, start_index)
  | edge :: rest, st, index, start_index =>
    if edge.created_time ≤ threshold_time then
      removeSweep threshold_time rest (update_degrees_remove st edge)
        (index + 1) (index + 1)
    else
      removeSweep threshold_time rest st (index + 1) start_index

def remove_edges (g : VenmoGraph) (threshold_time : Int) : VenmoGraph :=
  let r := removeSweep threshold_time g.edges (g.degrees, g.degree_buckets) 0 0
  { edges := g.edges.drop r.2, degrees := r.1.1, degree_buckets := r.1.2 }

/-! ### Ordered insertion (`_insert_edge`) -/

/-- The right-to-left scan of `_insert_edge` computing `insert_index`, taking
the reversed edge list (`for g_edge in reversed(self.edges)`); the source's
`or insert_index == 0` escape is subsumed by reaching the end of the list. -/
def insertIndexRev (edge : Edge) : List Edge → Nat
  | [] => 0
  | g_edge :: rest =>
    if g_edge.created_time < edge.created_time then rest.length + 1
    else insertIndexRev edge rest

def insert_edge (g : VenmoGraph) (edge : Edge) : VenmoGraph :=
  let insert_index := insertIndexRev edge g.edges.reverse
  { g with
    edges := g.edges.take insert_index ++ edge :: g.edges.drop insert_index }

/-! ### Queries and `add_edge` -/

def newest_time (g : VenmoGraph) : Int :=
  match g.edges.getLast? with
  | none => datetime_min
  | some e => e.created_time

def within_time_window (g : VenmoGraph) (edge : Edge) : Bool :=
  match g.edges.getLast? with
  | none => true
  | some last =>
    decide (last.created_time - window_seconds < edge.created_time)

def add_edge (g : VenmoGraph) (edge : Edge) : VenmoGraph :=
  if ¬ within_time_window g edge then g
  else
    let g1 :=
      if newest_time g < edge.created_time then
        remove_edges g (edge.created_time - window_seconds)
      else g
    update_degrees_add (insert_edge g1 edge) edge

/-- The scan of `get_degree` over the histogram entries in iteration order. -/
def get_degree_aux : List (Nat × Int) → Int → Nat → Option Nat
  | [], _, _ => none
  | (degree, bucket_size) :: rest, bucket_index, index =>
    if (index : Int) < bucket_index + bucket_size then some degree
    else get_degree_aux rest (bucket_index + bucket_size) index

def get_degree (g : VenmoGraph) (index : Nat) : Option Nat :=
  get_degree_aux g.degree_buckets 0 index

/-- `get_median_degree`; Python's `length / 2` is floor division on ints, and
the `None + int` type error that a failed `get_degree` lookup would raise is
modelled as `none` (the graph invariant proves the lookups succeed). -/
def get_median_degree (g : VenmoGraph) : Option ℚ :=
  let length := g.degrees.length
  if length = 0 then none
  else if length % 2 = 0 then
    match get_degree g (length / 2), get_degree g (length / 2 - 1) with
    | some a, some b => some (((a : ℚ) + (b : ℚ)) / 2)
    | _, _ => none
  else
    match get_degree g ((length - 1) / 2) with
    | some a => some ((a : ℚ))
    | none => none

/-- A graph reached from the empty graph by a sequence of `add_edge` calls. -/
def buildGraph (es : List Edge) : VenmoGraph :=
  es.foldl add_edge VenmoGraph.empty

/-! ### The `OverflowError` path of `datetime - timedelta`

`within_time_window` computes `newest_time - timedelta(60)` (line 161) and
`add_edge` computes `edge.created_time - timedelta(60)` (line 76).  In Python
a `datetime - timedelta` whose result would precede `datetime.min` raises
`OverflowError` — e.g. `datetime.min + 59s - 60s` does — and timestamps within
60 seconds of `datetime.min` are constructible from the wire format
(`"0001-01-01T00:00:00Z"` parses).  The checked definitions below transcribe
the same source lines with that raise modelled as `none`; both raise points
precede every mutation, so a raising `add_edge` leaves the graph unchanged. -/

/-- `t - timedelta(seconds=s)`: `none` models the `OverflowError` raised when
the result would precede `datetime.min`. -/
def datetime_sub (t s : Int) : Option Int :=
  if t - s < datetime_min then none else some (t - s)

/-- `within_time_window` with the `OverflowError` path: `none` models the
raise while computing `newest_time - timedelta(60)` on a non-empty graph. -/
def within_time_window_checked (g : VenmoGraph) (edge : Edge) : Option Bool :=
  match g.edges.getLast? with
  | none => some true
  | some last =>
    match datetime_sub last.created_time window_seconds with
    | none => none
    | some window_start => some (decide (window_start < edge.created_time))

/-- `add_edge` with the `OverflowError` paths made explicit: `none` models the
raise (propagated from `within_time_window`, or from computing the eviction
threshold `edge.created_time - timedelta(60)`); either raise precedes every
mutation, so the Python graph is left unchanged when it happens. -/
def add_edge_checked (g : VenmoGraph) (edge : Edge) : Option VenmoGraph :=
  match within_time_window_checked g edge with
  | none => none
  | some false => some g
  | some true =>
    if newest_time g < edge.created_time then
      match datetime_sub edge.created_time window_seconds with
      | none => none
      | some threshold_time =>
        some (update_degrees_add
          (insert_edge (remove_edges g threshold_time) edge) edge)
    else
      some (update_degrees_add (insert_edge g edge) edge)

/-- Feeding a list of edges through `add_edge_checked`; `none` as soon as one
add raises. -/
def addEdgesChecked (g : VenmoGraph) : List Edge → Option VenmoGraph
  | [] => some g
  | e :: rest =>
    match add_edge_checked g e with
    | none => none
    | some g1 => addEdgesChecked g1 rest

/-- The graph the real program reaches from empty through a sequence of adds
none of which raises (`none` if one does). -/
def buildGraphChecked (es : List Edge) : Option VenmoGraph :=
  addEdgesChecked VenmoGraph.empty es

/-! ### Helpers: first adds, and checked/total agreement -/

/-- On the empty graph the admission filter accepts and the eviction sweep
(taken or not) is over the empty sequence, so `add_edge` reduces to insertion
plus the degree updates. -/
theorem add_edge_empty_eq (e : Edge) : add_edge VenmoGraph.empty e =
    update_degrees_add (insert_edge VenmoGraph.empty e) e := by
  have hg1 : (if newest_time VenmoGraph.empty < e.created_time then
      remove_edges VenmoGraph.empty (e.created_time - window_seconds)
    else VenmoGraph.empty) = VenmoGraph.empty := by split <;> rfl
  simp only [add_edge, hg1]
  rfl

/-- The edge sequence of a one-edge graph. -/
theorem buildGraph_single_edges (e : Edge) : (buildGraph [e]).edges = [e] := by
  rw [show buildGraph [e] = add_edge VenmoGraph.empty e from rfl,
    add_edge_empty_eq]
  rfl

/-- The newest time of a one-edge graph. -/
theorem newest_time_buildGraph_single (e : Edge) :
    newest_time (buildGraph [e]) = e.created_time := by
  rw [newest_time, buildGraph_single_edges]
  rfl

/-- The graph built from one edge, when the edge is not a self-loop. -/
theorem buildGraph_single (e : Edge) (hv : e.v1 ≠ e.v2) :
    buildGraph [e] = ⟨[e], [(e.v1, 1), (e.v2, 1)], [(1, 2)]⟩ := by
  rw [show buildGraph [e] = add_edge VenmoGraph.empty e from rfl,
    add_edge_empty_eq]
  simp [update_degrees_add, update_degrees_add_pair, update_degrees_add_vertex,
    insert_edge, insertIndexRev, dMem, dSet, ddAdd, dGet, VenmoGraph.empty, hv]

/-- The graph built from one self-loop edge. -/
theorem buildGraph_single_loop (e : Edge) (hv : e.v1 = e.v2) :
    buildGraph [e] = ⟨[e], [(e.v1, 2)], [(1, 0), (2, 1)]⟩ := by
  rw [show buildGraph [e] = add_edge VenmoGraph.empty e from rfl,
    add_edge_empty_eq]
  simp [update_degrees_add, update_degrees_add_pair, update_degrees_add_vertex,
    insert_edge, insertIndexRev, dMem, dSet, ddAdd, dGet, VenmoGraph.empty, hv]

/-- When no datetime subtraction underflows `datetime.min` — a non-empty
graph's newest edge is at least 60s past `datetime.min`, and an empty graph's
first edge is not strictly inside `(datetime.min, datetime.min + 60s)` — the
OverflowError-aware `add_edge_checked` succeeds and agrees with the total
model `add_edge`. -/
theorem add_edge_checked_eq (g : VenmoGraph) (e : Edge)
    (hg : g.edges = [] ∨ datetime_min + window_seconds ≤ newest_time g)
    (he : g.edges = [] → datetime_min < e.created_time →
      datetime_min + window_seconds ≤ e.created_time) :
    add_edge_checked g e = some (add_edge g e) := by
  rcases hlast : g.edges.getLast? with _ | last
  · have hnil : g.edges = [] := List.getLast?_eq_none_iff.mp hlast
    have hnewest : newest_time g = datetime_min := by rw [newest_time, hlast]
    have hw : within_time_window g e = true := by rw [within_time_window, hlast]
    have hwc : within_time_window_checked g e = some true := by
      rw [within_time_window_checked, hlast]
    have hadd : add_edge g e =
        update_degrees_add (insert_edge
          (if newest_time g < e.created_time then
            remove_edges g (e.created_time - window_seconds) else g) e) e := by
      simp [add_edge, hw]
    unfold add_edge_checked
    rw [hwc]
    dsimp only
    by_cases hb : newest_time g < e.created_time
    · have hband : datetime_min + window_seconds ≤ e.created_time := by
        apply he hnil
        rw [hnewest] at hb
        exact hb
      have hsub : datetime_sub e.created_time window_seconds =
          some (e.created_time - window_seconds) := by
        rw [datetime_sub, if_neg]
        omega
      rw [if_pos hb, hsub]
      dsimp only
      rw [hadd, if_pos hb]
    · rw [if_neg hb, hadd, if_neg hb]
  · have hne2 : g.edges ≠ [] := by
      intro hc
      rw [hc] at hlast
      simp at hlast
    have hge : datetime_min + window_seconds ≤ newest_time g := by
      rcases hg with hg | hg
      · exact absurd hg hne2
      · exact hg
    have hnewest : newest_time g = last.created_time := by
      rw [newest_time, hlast]
    have hsub1 : datetime_sub last.created_time window_seconds =
        some (last.created_time - window_seconds) := by
      rw [hnewest] at hge
      rw [datetime_sub, if_neg]
      omega
    have hwc : within_time_window_checked g e = some (decide
        (last.created_time - window_seconds < e.created_time)) := by
      rw [within_time_window_checked, hlast]
      dsimp only
      rw [hsub1]
    have hw : within_time_window g e = decide
        (last.created_time - window_seconds < e.created_time) := by
      rw [within_time_window, hlast]
    unfold add_edge_checked
    rw [hwc]
    by_cases hadm : last.created_time - window_seconds < e.created_time
    · rw [decide_eq_true hadm]
      dsimp only
      have hwt : within_time_window g e = true := by
        rw [hw]
        exact decide_eq_true hadm
      have hadd : add_edge g e =
          update_degrees_add (insert_edge
            (if newest_time g < e.created_time then
              remove_edges g (e.created_time - window_seconds) else g) e) e := by
        simp [add_edge, hwt]
      by_cases hb : newest_time g < e.created_time
      · have hsub2 : datetime_sub e.created_time window_seconds =
            some (e.created_time - window_seconds) := by
          have hge2 : datetime_min + window_seconds ≤ newest_time g := hge
          rw [hnewest] at hge2
          rw [hnewest] at hb
          rw [datetime_sub, if_neg]
          omega
        rw [if_pos hb, hsub2]
        dsimp only
        rw [hadd, if_pos hb]
      · rw [if_neg hb, hadd, if_neg hb]
    · rw [decide_eq_false hadm]
      dsimp only
      have hrej : add_edge g e = g := by
        have hwf : within_time_window g e = false := by
          rw [hw]
          exact decide_eq_false hadm
        simp [add_edge, hwf]
      rw [hrej]

/-- Exactly when `add_edge` raises `OverflowError`: a non-empty graph whose
newest edge is within 60s of `datetime.min` (the raise happens in
`within_time_window`), or an empty graph receiving a first edge timestamped
strictly inside `(datetime.min, datetime.min + 60s)` (the raise happens while
computing the eviction threshold). -/
theorem add_edge_checked_none_iff (g : VenmoGraph) (e : Edge) :
    add_edge_checked g e = none ↔
      (g.edges ≠ [] ∧ newest_time g < datetime_min + window_seconds) ∨
      (g.edges = [] ∧ datetime_min < e.created_time ∧
        e.created_time < datetime_min + window_seconds) := by
  rcases hlast : g.edges.getLast? with _ | last
  · have hnil : g.edges = [] := List.getLast?_eq_none_iff.mp hlast
    have hnewest : newest_time g = datetime_min := by rw [newest_time, hlast]
    have hwc : within_time_window_checked g e = some true := by
      rw [within_time_window_checked, hlast]
    unfold add_edge_checked
    rw [hwc]
    dsimp only
    by_cases hb : newest_time g < e.created_time
    · rw [if_pos hb]
      by_cases hband : e.created_time < datetime_min + window_seconds
      · have hsub : datetime_sub e.created_time window_seconds = none := by
          rw [datetime_sub, if_pos]
          omega
        rw [hsub]
        dsimp only
        constructor
        · intro _
          refine Or.inr ⟨hnil, ?_, hband⟩
          rw [hnewest] at hb
          exact hb
        · intro _
          rfl
      · have hsub : datetime_sub e.created_time window_seconds =
            some (e.created_time - window_seconds) := by
          rw [datetime_sub, if_neg]
          omega
        rw [hsub]
        dsimp only
        constructor
        · intro hcon
          exact absurd hcon (Option.some_ne_none _)
        · intro hcon
          rcases hcon with ⟨hne, _⟩ | ⟨_, _, hband2⟩
          · exact absurd hnil hne
          · exact absurd hband2 hband
    · rw [if_neg hb]
      constructor
      · intro hcon
        exact absurd hcon (Option.some_ne_none _)
      · intro hcon
        rcases hcon with ⟨hne, _⟩ | ⟨_, hlt, _⟩
        · exact absurd hnil hne
        · rw [hnewest] at hb
          exact absurd hlt hb
  · have hne2 : g.edges ≠ [] := by
      intro hc
      rw [hc] at hlast
      simp at hlast
    have hnewest : newest_time g = last.created_time := by
      rw [newest_time, hlast]
    by_cases hov : newest_time g < datetime_min + window_seconds
    · have hsub : datetime_sub last.created_time window_seconds = none := by
        rw [hnewest] at hov
        rw [datetime_sub, if_pos]
        omega
      have hwc : within_time_window_checked g e = none := by
        rw [within_time_window_checked, hlast]
        dsimp only
        rw [hsub]
      unfold add_edge_checked
      rw [hwc]
      dsimp only
      constructor
      · intro _
        exact Or.inl ⟨hne2, hov⟩
      · intro _
        rfl
    · have hsome := add_edge_checked_eq g e (Or.inr (by omega))
        (fun hc _ => absurd hc hne2)
      rw [hsome]
      constructor
      · intro hcon
        exact absurd hcon (Option.some_ne_none _)
      · intro hcon
        rcases hcon with ⟨_, hov2⟩ | ⟨hnilc, _⟩
        · exact absurd hov2 hov
        · exact absurd hnilc hne2

/-- Modelled from the spec: the median of a degree multiset per §4.5 — sort
ascending; odd count: the degree at 0-indexed rank `(n-1)/2`; even count: the
average of the degrees at ranks `n/2 - 1` and `n/2`; empty: no data. -/
def specMedian (l : List Nat) : Option ℚ :=
  let s := List.insertionSort (· ≤ ·) l
  let n := l.length
  if n = 0 then none
  else if n % 2 = 1 then some ((s.getD ((n - 1) / 2) 0 : Nat) : ℚ)
  else some ((((s.getD (n / 2 - 1) 0 : Nat) : ℚ) + ((s.getD (n / 2) 0 : Nat) : ℚ)) / 2)

/-- The degrees held in the ledger, as a list (multiset) of values. -/
def degreeList (g : VenmoGraph) : List Nat := g.degrees.map Prod.snd

/-! ## Concrete behaviour of the timestamp parser (claim C7) -/

/-- C7 counterexample: the parser is laxer than the spec's exact
`YYYY-MM-DDTHH:MM:SSZ` pattern — `"2016-3-28T23:25:21Z"` (single-digit month)
does not match the exact pattern, yet edge construction succeeds on it, so
"fails if and only if the string does not match the exact pattern … or denotes
an invalid date/time" is false. -/
theorem strptime_exact_pattern_counterexample :
    parseTimestamp "2016-3-28T23:25:21Z" = some ⟨2016, 3, 28, 23, 25, 21⟩ ∧
    matchesSpecPattern "2016-3-28T23:25:21Z" = false := by
  constructor <;> rfl

/-- C7 (amended): construction fails on `"2016-13-28T23:25:21Z"` (invalid
month), `"2016-03-28T-1:25:21Z"` (invalid hour) and `"2016-03-28T23:25:100Z"`
(invalid second), and succeeds on `"2016-03-28T23:25:21Z"`, yielding the
literal date/time 2016-03-28 23:25:21; but the accepted format is laxer than
the exact two-digit pattern: month, day, hour, minute and second may be one or
two digits, and the literals `T`/`Z` also match in lower case. -/
theorem strptime_examples :
    parseTimestamp "2016-13-28T23:25:21Z" = none ∧
    parseTimestamp "2016-03-28T-1:25:21Z" = none ∧
    parseTimestamp "2016-03-28T23:25:100Z" = none ∧
    parseTimestamp "2016-03-28T23:25:21Z" = some ⟨2016, 3, 28, 23, 25, 21⟩ ∧
    parseTimestamp "2016-3-28T23:25:21Z" = some ⟨2016, 3, 28, 23, 25, 21⟩ ∧
    parseTimestamp "2016-03-28t23:25:21z" = some ⟨2016, 3, 28, 23, 25, 21⟩ := by
  refine ⟨rfl, rfl, rfl, rfl, rfl, rfl⟩

/-! ## End-to-end scenario (claim C8) -/

/-- C8: adding `(v1,v2,t0)`, `(v1,v2,t0)`, `(v1,v3,t0)` in order (at
`t0 = 1000`, far enough past `datetime.min` that no datetime subtraction
underflows — the OverflowError-aware semantics completes every add) yields
the medians `1.0`, `2.0`, `2.0`. -/
theorem end_to_end_scenario :
    buildGraphChecked [⟨"v1", "v2", 1000⟩] =
      some (buildGraph [⟨"v1", "v2", 1000⟩]) ∧
    buildGraphChecked [⟨"v1", "v2", 1000⟩, ⟨"v1", "v2", 1000⟩] =
      some (buildGraph [⟨"v1", "v2", 1000⟩, ⟨"v1", "v2", 1000⟩]) ∧
    buildGraphChecked [⟨"v1", "v2", 1000⟩, ⟨"v1", "v2", 1000⟩,
        ⟨"v1", "v3", 1000⟩] =
      some (buildGraph [⟨"v1", "v2", 1000⟩, ⟨"v1", "v2", 1000⟩,
        ⟨"v1", "v3", 1000⟩]) ∧
    get_median_degree (buildGraph [⟨"v1", "v2", 1000⟩]) = some 1 ∧
    get_median_degree (buildGraph [⟨"v1", "v2", 1000⟩, ⟨"v1", "v2", 1000⟩]) =
      some 2 ∧
    get_median_degree (buildGraph [⟨"v1", "v2", 1000⟩, ⟨"v1", "v2", 1000⟩,
      ⟨"v1", "v3", 1000⟩]) = some 2 := by
  have h1 : get_median_degree (buildGraph [⟨"v1", "v2", 1000⟩]) =
      some ((((1 : ℕ) : ℚ) + ((1 : ℕ) : ℚ)) / 2) := rfl
  have h2 : get_median_degree
      (buildGraph [⟨"v1", "v2", 1000⟩, ⟨"v1", "v2", 1000⟩]) =
      some ((((2 : ℕ) : ℚ) + ((2 : ℕ) : ℚ)) / 2) := rfl
  have h3 : get_median_degree (buildGraph [⟨"v1", "v2", 1000⟩,
      ⟨"v1", "v2", 1000⟩, ⟨"v1", "v3", 1000⟩]) =
      some ((2 : ℕ) : ℚ) := rfl
  refine ⟨by decide, by decide, by decide, ?_, ?_, ?_⟩ <;>
    [rw [h1]; rw [h2]; rw [h3]] <;> norm_num

/-! ## Counterexamples from reachable states (claims C1, C2) -/

/-- C1 counterexample: a reachable graph whose degree multiset is `{1, 1, 2}`
(vertices `a`, `b`, `c` with degrees `1`, `1`, `2`), reached at timestamp
`1000` — far enough past `datetime.min` that the OverflowError-aware
semantics completes both adds.  The median the code returns is `1.0` — the
middle of the ascending multiset — not `2` as the claim's "in particular"
instance asserts. -/
theorem median_claim_counterexample :
    buildGraphChecked [⟨"a", "c", 1000⟩, ⟨"b", "c", 1000⟩] =
      some (buildGraph [⟨"a", "c", 1000⟩, ⟨"b", "c", 1000⟩]) ∧
    (buildGraph [⟨"a", "c", 1000⟩, ⟨"b", "c", 1000⟩]).degrees =
      [("a", 1), ("c", 2), ("b", 1)] ∧
    get_median_degree (buildGraph [⟨"a", "c", 1000⟩, ⟨"b", "c", 1000⟩]) =
      some 1 ∧
    get_median_degree (buildGraph [⟨"a", "c", 1000⟩, ⟨"b", "c", 1000⟩]) ≠
      some 2 := by
  refine ⟨by decide, by decide, by decide, by decide⟩

/-- C2 counterexample: after adding the same edge twice (at timestamp `1000`,
so the OverflowError-aware semantics completes both adds), the histogram of
this reachable state holds bucket `1` with count `0` — a non-positive count —
because a `defaultdict` entry decremented to `0` is never deleted.  This
refutes "no bucket in the histogram holds a non-positive count". -/
theorem histogram_nonpositive_counterexample :
    buildGraphChecked [⟨"a", "b", 1000⟩, ⟨"a", "b", 1000⟩] =
      some (buildGraph [⟨"a", "b", 1000⟩, ⟨"a", "b", 1000⟩]) ∧
    (buildGraph [⟨"a", "b", 1000⟩, ⟨"a", "b", 1000⟩]).degree_buckets =
      [(1, 0), (2, 2)] := by
  refine ⟨by decide, by decide⟩

/-! ## First add on the empty graph (claim C10) -/

/-- C10 counterexample: an edge timestamped exactly `datetime.min` (parseable
in Python as `"0001-01-01T00:00:00Z"`) is admitted by the first `add_edge` on
the empty graph, but `edge.created_time > newest_time()` is false, so the
window-advance branch is *not* taken — refuting "always takes the
window-advance branch". -/
theorem first_add_branch_counterexample :
    within_time_window VenmoGraph.empty ⟨"a", "b", datetime_min⟩ = true ∧
    ¬ (newest_time VenmoGraph.empty <
        (Edge.mk "a" "b" datetime_min).created_time) ∧
    add_edge_checked VenmoGraph.empty ⟨"a", "b", datetime_min⟩ =
      some (add_edge VenmoGraph.empty ⟨"a", "b", datetime_min⟩) ∧
    (add_edge VenmoGraph.empty ⟨"a", "b", datetime_min⟩).edges =
      [⟨"a", "b", datetime_min⟩] := by
  refine ⟨by decide, by decide, by decide, by decide⟩

/-- C10 (amended): on the empty graph `newest_time` returns `datetime.min`
(an ordinary comparable timestamp) and the first `add_edge` always passes the
admission filter without error; the window-advance branch is taken exactly
when the edge's timestamp is strictly after `datetime.min`.  When the branch
is taken with a timestamp strictly inside `(datetime.min, datetime.min + 60s)`
computing the eviction threshold raises OverflowError and the graph stays
empty; otherwise — timestamp exactly `datetime.min` (branch skipped) or at
least `datetime.min + 60s` (sweep over the empty sequence, vacuous) — the add
completes and the graph ends holding exactly that one edge. -/
theorem first_add_empty_graph (e : Edge) :
    newest_time VenmoGraph.empty = datetime_min ∧
    within_time_window_checked VenmoGraph.empty e = some true ∧
    (newest_time VenmoGraph.empty < e.created_time ↔
      datetime_min < e.created_time) ∧
    (datetime_min < e.created_time ∧
        e.created_time < datetime_min + window_seconds →
      add_edge_checked VenmoGraph.empty e = none) ∧
    (e.created_time = datetime_min ∨
        datetime_min + window_seconds ≤ e.created_time →
      add_edge_checked VenmoGraph.empty e =
        some (update_degrees_add (insert_edge VenmoGraph.empty e) e) ∧
      (update_degrees_add (insert_edge VenmoGraph.empty e) e).edges = [e]) := by
  refine ⟨rfl, rfl, Iff.rfl, ?_, ?_⟩
  · intro hband
    rw [add_edge_checked_none_iff]
    exact Or.inr ⟨rfl, hband.1, hband.2⟩
  · intro hok
    have hchk : add_edge_checked VenmoGraph.empty e =
        some (add_edge VenmoGraph.empty e) := by
      apply add_edge_checked_eq VenmoGraph.empty e (Or.inl rfl)
      intro _ hlt
      rcases hok with hok | hok
      · rw [hok] at hlt
        exact absurd hlt (lt_irrefl _)
      · exact hok
    rw [hchk, add_edge_empty_eq]
    exact ⟨rfl, rfl⟩

/-- C10 witness: the first add at the concrete timestamp `1000` (at least
60s past `datetime.min`) completes and leaves exactly that edge. -/
theorem first_add_empty_graph_witness :
    add_edge_checked VenmoGraph.empty ⟨"a", "b", 1000⟩ =
      some (update_degrees_add (insert_edge VenmoGraph.empty ⟨"a", "b", 1000⟩)
        ⟨"a", "b", 1000⟩) ∧
    (update_degrees_add (insert_edge VenmoGraph.empty ⟨"a", "b", 1000⟩)
      ⟨"a", "b", 1000⟩).edges = [⟨"a", "b", 1000⟩] :=
  (first_add_empty_graph ⟨"a", "b", 1000⟩).2.2.2.2 (Or.inr (by decide))

/-! ## Eviction boundary (claim C5) -/

/-- C5 counterexample: a graph holding exactly one edge timestamped
`datetime.min` is reachable (the first add completes), but calling `add_edge`
with an edge timestamped exactly `datetime.min + 60` raises OverflowError —
`within_time_window` computes `datetime.min - 60s` — instead of evicting the
old edge, so the claim fails for `T` within 60s of `datetime.min`. -/
theorem eviction_boundary_counterexample :
    buildGraphChecked [⟨"a", "b", datetime_min⟩] =
      some (buildGraph [⟨"a", "b", datetime_min⟩]) ∧
    (buildGraph [⟨"a", "b", datetime_min⟩]).edges = [⟨"a", "b", datetime_min⟩] ∧
    add_edge_checked (buildGraph [⟨"a", "b", datetime_min⟩])
      ⟨"c", "d", datetime_min + 60⟩ = none := by
  refine ⟨by decide, by decide, by decide⟩

/-- C5 (amended): from a graph holding exactly one edge with timestamp
`T ≥ datetime.min + 60s` — so that no datetime subtraction can underflow, and
indeed the OverflowError-aware semantics completes every call below — adding
an edge timestamped `T + 60` evicts the first edge (the sequence afterwards
holds only the new edge and its two distinct endpoints sit at degree 1) while
adding an edge timestamped `T + 59` retains it, leaving both edges present in
timestamp order.  For `T` within 60s of `datetime.min` the `T + 60` add
instead raises OverflowError (see the counterexample). -/
theorem eviction_boundary (e : Edge) (w1 w2 : String) (hne : w1 ≠ w2)
    (hT : datetime_min + window_seconds ≤ e.created_time) :
    buildGraphChecked [e] = some (buildGraph [e]) ∧
    add_edge_checked (buildGraph [e]) ⟨w1, w2, e.created_time + 60⟩ =
      some (add_edge (buildGraph [e]) ⟨w1, w2, e.created_time + 60⟩) ∧
    add_edge_checked (buildGraph [e]) ⟨w1, w2, e.created_time + 59⟩ =
      some (add_edge (buildGraph [e]) ⟨w1, w2, e.created_time + 59⟩) ∧
    (add_edge (buildGraph [e]) ⟨w1, w2, e.created_time + 60⟩).edges =
      [⟨w1, w2, e.created_time + 60⟩] ∧
    (add_edge (buildGraph [e]) ⟨w1, w2, e.created_time + 60⟩).degrees =
      [(w1, 1), (w2, 1)] ∧
    (add_edge (buildGraph [e]) ⟨w1, w2, e.created_time + 59⟩).edges =
      [e, ⟨w1, w2, e.created_time + 59⟩] := by
  have hchk0 : add_edge_checked VenmoGraph.empty e =
      some (add_edge VenmoGraph.empty e) :=
    add_edge_checked_eq VenmoGraph.empty e (Or.inl rfl) (fun _ _ => hT)
  have hbuilt : buildGraphChecked [e] = some (buildGraph [e]) := by
    rw [buildGraphChecked, addEdgesChecked, hchk0]
    rfl
  have hedges1 : (buildGraph [e]).edges = [e] := buildGraph_single_edges e
  have hnew1 : newest_time (buildGraph [e]) = e.created_time :=
    newest_time_buildGraph_single e
  have hnonempty : (buildGraph [e]).edges ≠ [] := by
    rw [hedges1]
    simp
  have hchk60 : add_edge_checked (buildGraph [e])
      ⟨w1, w2, e.created_time + 60⟩ =
      some (add_edge (buildGraph [e]) ⟨w1, w2, e.created_time + 60⟩) := by
    apply add_edge_checked_eq
    · rw [hnew1]
      exact Or.inr hT
    · intro hc
      exact absurd hc hnonempty
  have hchk59 : add_edge_checked (buildGraph [e])
      ⟨w1, w2, e.created_time + 59⟩ =
      some (add_edge (buildGraph [e]) ⟨w1, w2, e.created_time + 59⟩) := by
    apply add_edge_checked_eq
    · rw [hnew1]
      exact Or.inr hT
    · intro hc
      exact absurd hc hnonempty
  have c1 : e.created_time - window_seconds < e.created_time + 60 := by
    unfold window_seconds; omega
  have c1' : e.created_time - window_seconds < e.created_time + 59 := by
    unfold window_seconds; omega
  have c2 : e.created_time < e.created_time + 60 := by omega
  have c2' : e.created_time < e.created_time + 59 := by omega
  have c3 : e.created_time ≤ e.created_time + 60 - window_seconds := by
    unfold window_seconds; omega
  have c3' : ¬ e.created_time ≤ e.created_time + 59 - window_seconds := by
    unfold window_seconds; omega
  have hold : (add_edge (buildGraph [e]) ⟨w1, w2, e.created_time + 60⟩).edges =
        [⟨w1, w2, e.created_time + 60⟩] ∧
      (add_edge (buildGraph [e]) ⟨w1, w2, e.created_time + 60⟩).degrees =
        [(w1, 1), (w2, 1)] ∧
      (add_edge (buildGraph [e]) ⟨w1, w2, e.created_time + 59⟩).edges =
        [e, ⟨w1, w2, e.created_time + 59⟩] := by
    rcases eq_or_ne e.v1 e.v2 with hv | hv
    · rw [buildGraph_single_loop e hv]
      refine ⟨?_, ?_, ?_⟩ <;>
        simp [add_edge, within_time_window, newest_time, remove_edges,
          removeSweep, update_degrees_remove, update_degrees_remove_vertex,
          update_degrees_add, update_degrees_add_pair, update_degrees_add_vertex,
          insert_edge, insertIndexRev, dMem, dGet, dSet, dDel, ddAdd,
          c1, c1', c2, c2', c3, c3', hne, hv, Ne.symm hne]
    · rw [buildGraph_single e hv]
      refine ⟨?_, ?_, ?_⟩ <;>
        simp [add_edge, within_time_window, newest_time, remove_edges,
          removeSweep, update_degrees_remove, update_degrees_remove_vertex,
          update_degrees_add, update_degrees_add_pair, update_degrees_add_vertex,
          insert_edge, insertIndexRev, dMem, dGet, dSet, dDel, ddAdd,
          c1, c1', c2, c2', c3, c3', hne, hv, Ne.symm hne, Ne.symm hv]
  exact ⟨hbuilt, hchk60, hchk59, hold.1, hold.2.1, hold.2.2⟩

/-- C5 witness: the boundary behaviour at the concrete timestamp `1000`. -/
theorem eviction_boundary_witness :
    buildGraphChecked [⟨"a", "b", 1000⟩] =
      some (buildGraph [⟨"a", "b", 1000⟩]) ∧
    add_edge_checked (buildGraph [⟨"a", "b", 1000⟩]) ⟨"c", "d", 1000 + 60⟩ =
      some (add_edge (buildGraph [⟨"a", "b", 1000⟩]) ⟨"c", "d", 1000 + 60⟩) ∧
    add_edge_checked (buildGraph [⟨"a", "b", 1000⟩]) ⟨"c", "d", 1000 + 59⟩ =
      some (add_edge (buildGraph [⟨"a", "b", 1000⟩]) ⟨"c", "d", 1000 + 59⟩) ∧
    (add_edge (buildGraph [⟨"a", "b", 1000⟩]) ⟨"c", "d", 1000 + 60⟩).edges =
      [⟨"c", "d", 1000 + 60⟩] ∧
    (add_edge (buildGraph [⟨"a", "b", 1000⟩]) ⟨"c", "d", 1000 + 60⟩).degrees =
      [("c", 1), ("d", 1)] ∧
    (add_edge (buildGraph [⟨"a", "b", 1000⟩]) ⟨"c", "d", 1000 + 59⟩).edges =
      [⟨"a", "b", 1000⟩, ⟨"c", "d", 1000 + 59⟩] :=
  eviction_boundary ⟨"a", "b", 1000⟩ "c" "d" (by decide) (by decide)

/-! ## Atomicity of `add_edge` (claim C6) -/

/-- C6 counterexample: the one-edge graph at `datetime.min` is reachable (the
first add completes), and the edge timestamped `datetime.min + 30` is
admissible — its timestamp exceeds `newest_time - 60s` — yet the call raises
OverflowError inside `within_time_window` (computing `datetime.min - 60s`)
instead of applying the eviction/insertion/ledger pipeline, refuting "an
admissible edge has the eviction, the insertion, and both ledger updates all
applied" and "raises no error". -/
theorem add_edge_atomic_counterexample :
    buildGraphChecked [⟨"a", "b", datetime_min⟩] =
      some (buildGraph [⟨"a", "b", datetime_min⟩]) ∧
    newest_time (buildGraph [⟨"a", "b", datetime_min⟩]) - window_seconds <
      (Edge.mk "c" "d" (datetime_min + 30)).created_time ∧
    add_edge_checked (buildGraph [⟨"a", "b", datetime_min⟩])
      ⟨"c", "d", datetime_min + 30⟩ = none := by
  refine ⟨by decide, by decide, by decide⟩

/-- C6 (amended): `add_edge` is atomic, with the OverflowError path made
explicit.  An edge whose timestamp is at most `newest_time() - 60s` is
silently rejected: the returned graph is exactly the old one, every component
unchanged, and no error is raised (the subtraction cannot underflow there).
An admissible edge either has exactly the conditional-eviction / insertion /
ledger-update pipeline applied — whenever the call raises no OverflowError —
or the call raises (`none`) before any mutation; the raise happens exactly
when a non-empty graph's newest edge is within 60s of `datetime.min`, or an
empty graph's first edge is timestamped strictly inside
`(datetime.min, datetime.min + 60s)`.  Either way no intermediate state is
observable.  (The hypothesis `datetime_min ≤ created_time` records that every
Python `datetime` is at least `datetime.min`.) -/
theorem add_edge_atomic (g : VenmoGraph) (e : Edge)
    (hvalid : datetime_min ≤ e.created_time) :
    (e.created_time ≤ newest_time g - window_seconds →
      add_edge_checked g e = some g ∧ add_edge g e = g) ∧
    (newest_time g - window_seconds < e.created_time →
      add_edge_checked g e ≠ none →
      add_edge_checked g e =
        some (update_degrees_add
          (insert_edge
            (if newest_time g < e.created_time then
              remove_edges g (e.created_time - window_seconds)
            else g) e) e)) ∧
    (add_edge_checked g e = none ↔
      (g.edges ≠ [] ∧ newest_time g < datetime_min + window_seconds) ∨
      (g.edges = [] ∧ datetime_min < e.created_time ∧
        e.created_time < datetime_min + window_seconds)) := by
  refine ⟨?_, ?_, add_edge_checked_none_iff g e⟩
  · intro h
    have hne : g.edges ≠ [] := by
      intro hnil
      have hn : newest_time g = datetime_min := by simp [newest_time, hnil]
      rw [hn] at h
      simp [datetime_min, window_seconds] at h hvalid
      omega
    have hrej : add_edge g e = g := by
      rcases hl : g.edges.getLast? with _ | last
      · exact absurd (List.getLast?_eq_none_iff.mp hl) hne
      · have hw : within_time_window g e = false := by
          have hn : newest_time g = last.created_time := by
            simp [newest_time, hl]
          have h2 := h
          rw [hn] at h2
          simp [within_time_window, hl]
          omega
        simp [add_edge, hw]
    have hge : datetime_min + window_seconds ≤ newest_time g := by omega
    have hchk := add_edge_checked_eq g e (Or.inr hge)
      (fun hc _ => absurd hc hne)
    rw [hchk, hrej]
    exact ⟨rfl, rfl⟩
  · intro h hnone
    rw [ne_eq, add_edge_checked_none_iff] at hnone
    push_neg at hnone
    have hg : g.edges = [] ∨ datetime_min + window_seconds ≤ newest_time g := by
      by_cases hnil : g.edges = []
      · exact Or.inl hnil
      · exact Or.inr (hnone.1 hnil)
    have hchk := add_edge_checked_eq g e hg (fun hnil hlt => hnone.2 hnil hlt)
    rw [hchk]
    have hw : within_time_window g e = true := by
      rcases hl : g.edges.getLast? with _ | last
      · simp [within_time_window, hl]
      · have hn : newest_time g = last.created_time := by simp [newest_time, hl]
        have h2 := h
        rw [hn] at h2
        simp [within_time_window, hl]
        omega
    have hpipe : add_edge g e =
        update_degrees_add
          (insert_edge
            (if newest_time g < e.created_time then
              remove_edges g (e.created_time - window_seconds)
            else g) e) e := by
      simp [add_edge, hw]
    rw [hpipe]

/-- C6 witness: with one edge at `1000` in the window, an edge at `900`
(`≤ 1000 - 60`) is rejected with no error and the graph is returned
unchanged. -/
theorem add_edge_atomic_witness :
    add_edge_checked (buildGraph [⟨"a", "b", 1000⟩]) ⟨"c", "d", 900⟩ =
      some (buildGraph [⟨"a", "b", 1000⟩]) ∧
    add_edge (buildGraph [⟨"a", "b", 1000⟩]) ⟨"c", "d", 900⟩ =
      buildGraph [⟨"a", "b", 1000⟩] :=
  (add_edge_atomic (buildGraph [⟨"a", "b", 1000⟩]) ⟨"c", "d", 900⟩
    (by decide)).1 (by decide)

/-! ## Counting helpers for the graph invariant -/

/-- Number of ledger entries holding degree `d`. -/
def countDeg (ds : List (String × Nat)) (d : Nat) : Nat :=
  (ds.filter (fun p => p.2 = d)).length

/-- Sum of all degrees in the ledger. -/
def sumDeg (ds : List (String × Nat)) : Nat := (ds.map Prod.snd).sum

/-- How many endpoints of `e` equal `w` (2 for a self-loop at `w`). -/
def inc1 (e : Edge) (w : String) : Nat :=
  (if w = e.v1 then 1 else 0) + (if w = e.v2 then 1 else 0)

/-- Total incidence of vertex `w` in the edge list (parallel edges multiply). -/
def incCount (es : List Edge) (w : String) : Nat :=
  (es.map (fun e => inc1 e w)).sum

/-! ## Association-list lemmas -/

theorem alGet_ddAdd : ∀ (b : List (Nat × Int)) (k : Nat) (x : Int) (d : Nat),
    alGet (ddAdd b k x) d = alGet b d + (if d = k then x else 0)
  | [], k, x, d => by
    rcases eq_or_ne d k with h | h
    · subst h; simp [ddAdd, alGet]
    · simp [ddAdd, alGet, h, Ne.symm h]
  | (q, y) :: rest, k, x, d => by
    rcases eq_or_ne q k with h | h
    · subst h
      rcases eq_or_ne d q with h2 | h2
      · subst h2; simp [ddAdd, alGet]
      · simp [ddAdd, alGet, h2, Ne.symm h2]
    · rcases eq_or_ne q d with h2 | h2
      · subst h2
        simp [ddAdd, alGet, h]
      · simp [ddAdd, alGet, h, h2, alGet_ddAdd rest k x d]

theorem keys_ddAdd_mem (b : List (Nat × Int)) (k : Nat) (x : Int)
    (h : k ∈ b.map Prod.fst) :
    (ddAdd b k x).map Prod.fst = b.map Prod.fst := by
  induction b with
  | nil => simp at h
  | cons p rest ih =>
    rcases eq_or_ne p.1 k with h1 | h1
    · simp [ddAdd, h1]
    · simp only [List.map_cons, List.mem_cons] at h
      rcases h with h | h
      · exact absurd h.symm h1
      · simp [ddAdd, h1, ih h]

theorem keys_ddAdd_notMem (b : List (Nat × Int)) (k : Nat) (x : Int)
    (h : k ∉ b.map Prod.fst) :
    ddAdd b k x = b ++ [(k, x)] := by
  induction b with
  | nil => simp [ddAdd]
  | cons p rest ih =>
    simp only [List.map_cons, List.mem_cons, not_or] at h
    simp [ddAdd, Ne.symm h.1, ih h.2]

theorem dGet_dSet : ∀ (ds : List (String × Nat)) (v : String) (x : Nat)
    (w : String), dGet (dSet ds v x) w = if w = v then x else dGet ds w
  | [], v, x, w => by
    rcases eq_or_ne w v with h | h
    · subst h; simp [dSet, dGet]
    · simp [dSet, dGet, h, Ne.symm h]
  | (q, y) :: rest, v, x, w => by
    rcases eq_or_ne q v with h | h
    · subst h
      rcases eq_or_ne w q with h2 | h2
      · subst h2; simp [dSet, dGet]
      · simp [dSet, dGet, h2, Ne.symm h2]
    · rcases eq_or_ne q w with h2 | h2
      · subst h2
        simp [dSet, dGet, h]
      · simp [dSet, dGet, h, h2, dGet_dSet rest v x w]

theorem mem_dSet (ds : List (String × Nat)) (v : String) (x : Nat)
    (p : String × Nat) (h : p ∈ dSet ds v x) : p = (v, x) ∨ p ∈ ds := by
  induction ds with
  | nil => simp [dSet] at h; simp [h]
  | cons q rest ih =>
    by_cases h1 : q.1 = v
    · simp only [dSet, if_pos h1, List.mem_cons] at h
      rcases h with h | h
      · exact Or.inl h
      · exact Or.inr (List.mem_cons_of_mem q h)
    · simp only [dSet, if_neg h1, List.mem_cons] at h
      rcases h with h | h
      · exact Or.inr (by simp [h])
      · rcases ih h with h2 | h2
        · exact Or.inl h2
        · exact Or.inr (List.mem_cons_of_mem q h2)

theorem keys_dSet_mem (ds : List (String × Nat)) (v : String) (x : Nat)
    (h : dMem ds v = true) :
    (dSet ds v x).map Prod.fst = ds.map Prod.fst := by
  induction ds with
  | nil => simp [dMem] at h
  | cons p rest ih =>
    rcases eq_or_ne p.1 v with h1 | h1
    · simp [dSet, h1]
    · simp only [dMem, List.any_cons, Bool.or_eq_true, decide_eq_true_eq] at h
      rcases h with h | h
      · exact absurd h h1
      · simp [dSet, h1, ih (by simpa [dMem] using h)]

theorem keys_dSet_notMem (ds : List (String × Nat)) (v : String) (x : Nat)
    (h : dMem ds v = false) :
    dSet ds v x = ds ++ [(v, x)] := by
  induction ds with
  | nil => simp [dSet]
  | cons p rest ih =>
    simp only [dMem, List.any_cons, Bool.or_eq_false_iff,
      decide_eq_false_iff_not] at h
    simp [dSet, h.1, ih (by simpa [dMem] using h.2)]

theorem dMem_false_dGet (ds : List (String × Nat)) (v : String)
    (h : dMem ds v = false) : dGet ds v = 0 := by
  induction ds with
  | nil => rfl
  | cons p rest ih =>
    simp only [dMem, List.any_cons, Bool.or_eq_false_iff,
      decide_eq_false_iff_not] at h
    simp [dGet, h.1, ih (by simpa [dMem] using h.2)]

theorem dGet_mem : ∀ (ds : List (String × Nat)) (v : String),
    dMem ds v = true → (v, dGet ds v) ∈ ds
  | [], v, h => by simp [dMem] at h
  | (q, y) :: rest, v, h => by
    rcases eq_or_ne q v with h1 | h1
    · subst h1
      simp [dGet]
    · have h2 : dMem rest v = true := by
        simp only [dMem, List.any_cons, Bool.or_eq_true, decide_eq_true_eq] at h
        rcases h with h | h
        · exact absurd h h1
        · simpa [dMem] using h
      simp only [dGet, if_neg h1, List.mem_cons]
      exact Or.inr (dGet_mem rest v h2)

theorem dMem_of_dGet_pos (ds : List (String × Nat)) (v : String)
    (h : 1 ≤ dGet ds v) : dMem ds v = true := by
  by_contra hc
  have := dMem_false_dGet ds v (by simpa using hc)
  omega

theorem dGet_dDel : ∀ (ds : List (String × Nat)) (v w : String),
    dGet (dDel ds v) w = if w = v then 0 else dGet ds w
  | [], v, w => by rcases eq_or_ne w v with h | h <;> simp [dDel, dGet, h]
  | (q, y) :: rest, v, w => by
    have ih := dGet_dDel rest v w
    simp only [dDel, decide_not] at ih ⊢
    rcases eq_or_ne q v with h1 | h1
    · subst h1
      rcases eq_or_ne w q with h2 | h2
      · subst h2
        simp [List.filter_cons, ih]
      · simp [List.filter_cons, dGet, h2, Ne.symm h2, ih]
    · rcases eq_or_ne q w with h2 | h2
      · subst h2
        simp [List.filter_cons, dGet, h1, ih]
      · simp [List.filter_cons, dGet, h1, h2, ih]

theorem dMem_iff (ds : List (String × Nat)) (v : String) :
    dMem ds v = true ↔ v ∈ ds.map Prod.fst := by
  induction ds with
  | nil => simp [dMem]
  | cons p rest ih =>
    simp only [dMem, List.any_cons, Bool.or_eq_true, decide_eq_true_eq,
      List.map_cons, List.mem_cons] at ih ⊢
    rw [← ih]
    constructor
    · rintro (h | h)
      · exact Or.inl h.symm
      · exact Or.inr h
    · rintro (h | h)
      · exact Or.inl h.symm
      · exact Or.inr h

theorem dDel_notMem (ds : List (String × Nat)) (v : String)
    (h : dMem ds v = false) : dDel ds v = ds := by
  induction ds with
  | nil => rfl
  | cons p rest ih =>
    simp only [dMem, List.any_cons, Bool.or_eq_false_iff,
      decide_eq_false_iff_not] at h
    simp only [dDel, decide_not, List.filter_cons] at ih ⊢
    simp [h.1, ih (by simpa [dMem] using h.2)]

theorem countDeg_cons (q : String) (y : Nat) (rest : List (String × Nat))
    (d : Nat) :
    countDeg ((q, y) :: rest) d = (if y = d then 1 else 0) + countDeg rest d := by
  rcases eq_or_ne y d with h | h <;> simp [countDeg, List.filter_cons, h,
    Nat.add_comm]

theorem sumDeg_cons (q : String) (y : Nat) (rest : List (String × Nat)) :
    sumDeg ((q, y) :: rest) = y + sumDeg rest := by
  simp [sumDeg]

theorem countDeg_append_single (ds : List (String × Nat)) (v : String)
    (x : Nat) (d : Nat) :
    countDeg (ds ++ [(v, x)]) d = countDeg ds d + (if x = d then 1 else 0) := by
  rcases eq_or_ne x d with h | h <;>
    simp [countDeg, List.filter_append, List.filter_cons, h]

theorem sumDeg_append_single (ds : List (String × Nat)) (v : String)
    (x : Nat) : sumDeg (ds ++ [(v, x)]) = sumDeg ds + x := by
  simp [sumDeg]

theorem countDeg_dSet : ∀ (ds : List (String × Nat)) (v : String) (x : Nat),
    dMem ds v = true → ∀ d,
      countDeg (dSet ds v x) d + (if dGet ds v = d then 1 else 0) =
        countDeg ds d + (if x = d then 1 else 0)
  | [], v, x, h, d => by simp [dMem] at h
  | (q, y) :: rest, v, x, h, d => by
    rcases eq_or_ne q v with h1 | h1
    · subst h1
      simp [dSet, dGet, countDeg_cons]
      omega
    · have h2 : dMem rest v = true := by
        simp only [dMem, List.any_cons, Bool.or_eq_true, decide_eq_true_eq] at h
        rcases h with h | h
        · exact absurd h h1
        · simpa [dMem] using h
      have ih := countDeg_dSet rest v x h2 d
      simp only [dSet, if_neg h1, dGet, countDeg_cons]
      omega

theorem sumDeg_dSet : ∀ (ds : List (String × Nat)) (v : String) (x : Nat),
    dMem ds v = true →
      sumDeg (dSet ds v x) + dGet ds v = sumDeg ds + x
  | [], v, x, h => by simp [dMem] at h
  | (q, y) :: rest, v, x, h => by
    rcases eq_or_ne q v with h1 | h1
    · subst h1
      simp [dSet, dGet, sumDeg_cons]
      omega
    · have h2 : dMem rest v = true := by
        simp only [dMem, List.any_cons, Bool.or_eq_true, decide_eq_true_eq] at h
        rcases h with h | h
        · exact absurd h h1
        · simpa [dMem] using h
      have ih := sumDeg_dSet rest v x h2
      simp only [dSet, if_neg h1, dGet, sumDeg_cons]
      omega

theorem countDeg_dDel : ∀ (ds : List (String × Nat)) (v : String),
    (ds.map Prod.fst).Nodup → dMem ds v = true → ∀ d,
      countDeg (dDel ds v) d + (if dGet ds v = d then 1 else 0) =
        countDeg ds d
  | [], v, _, h, d => by simp [dMem] at h
  | (q, y) :: rest, v, hnd, h, d => by
    simp only [List.map_cons, List.nodup_cons] at hnd
    rcases eq_or_ne q v with h1 | h1
    · subst h1
      have hrest : dMem rest q = false := by
        rcases hm : dMem rest q with hm0 | hm1
        · rfl
        · exact absurd ((dMem_iff rest q).mp hm) hnd.1
      simp only [dDel, decide_not, List.filter_cons, decide_eq_true_eq]
      have hskip : (!decide (q = q)) = false := by simp
      rw [show ∀ l : List (String × Nat),
          List.filter (fun p => !decide (p.1 = q)) l = dDel l q from fun _ => by
            simp [dDel, decide_not],
        dDel_notMem rest q hrest]
      simp [dGet, countDeg_cons]
      omega
    · have h2 : dMem rest v = true := by
        simp only [dMem, List.any_cons, Bool.or_eq_true, decide_eq_true_eq] at h
        rcases h with h | h
        · exact absurd h h1
        · simpa [dMem] using h
      have ih := countDeg_dDel rest v hnd.2 h2 d
      simp only [dDel, decide_not, List.filter_cons] at ih ⊢
      simp only [dGet, if_neg h1]
      rcases eq_or_ne y d with hy | hy <;>
        simp [h1, countDeg_cons, hy] <;> omega

theorem sumDeg_dDel : ∀ (ds : List (String × Nat)) (v : String),
    (ds.map Prod.fst).Nodup → dMem ds v = true →
      sumDeg (dDel ds v) + dGet ds v = sumDeg ds
  | [], v, _, h => by simp [dMem] at h
  | (q, y) :: rest, v, hnd, h => by
    simp only [List.map_cons, List.nodup_cons] at hnd
    rcases eq_or_ne q v with h1 | h1
    · subst h1
      have hrest : dMem rest q = false := by
        rcases hm : dMem rest q with hm0 | hm1
        · rfl
        · exact absurd ((dMem_iff rest q).mp hm) hnd.1
      simp only [dDel, decide_not, List.filter_cons]
      rw [show ∀ l : List (String × Nat),
          List.filter (fun p => !decide (p.1 = q)) l = dDel l q from fun _ => by
            simp [dDel, decide_not],
        dDel_notMem rest q hrest]
      simp [dGet, sumDeg_cons]
      omega
    · have h2 : dMem rest v = true := by
        simp only [dMem, List.any_cons, Bool.or_eq_true, decide_eq_true_eq] at h
        rcases h with h | h
        · exact absurd h h1
        · simpa [dMem] using h
      have ih := sumDeg_dDel rest v hnd.2 h2
      simp only [dDel, decide_not, List.filter_cons] at ih ⊢
      simp only [dGet, if_neg h1]
      simp [h1, sumDeg_cons]
      omega

/-! ## The degree-ledger/histogram invariant -/

/-- Consistency of the degree ledger with the degree histogram: the ledger's
keys are distinct; the histogram's keys are exactly `1, 2, …, K` in insertion
(= ascending) order; every ledger degree lies in `[1, K]`; and bucket `d`
counts exactly the ledger entries of degree `d`. -/
structure DInv (ds : List (String × Nat)) (bs : List (Nat × Int)) : Prop where
  nodup : (ds.map Prod.fst).Nodup
  keys : bs.map Prod.fst = List.range' 1 bs.length
  bounds : ∀ p ∈ ds, 1 ≤ p.2 ∧ p.2 ≤ bs.length
  counts : ∀ d, alGet bs d = (countDeg ds d : Int)

theorem bucket_keys_shape (bs : List (Nat × Int)) (k : Nat) (x : Int)
    (hkeys : bs.map Prod.fst = List.range' 1 bs.length)
    (hk : 1 ≤ k) (hk2 : k ≤ bs.length + 1) :
    (ddAdd bs k x).map Prod.fst = List.range' 1 (ddAdd bs k x).length ∧
      bs.length ≤ (ddAdd bs k x).length ∧ k ≤ (ddAdd bs k x).length := by
  by_cases hm : k ≤ bs.length
  · have hmem : k ∈ bs.map Prod.fst := by
      rw [hkeys]
      exact List.mem_range'_1.mpr ⟨hk, by omega⟩
    have hmap := keys_ddAdd_mem bs k x hmem
    have hlen : (ddAdd bs k x).length = bs.length := by
      have h2 : ((ddAdd bs k x).map Prod.fst).length =
          (bs.map Prod.fst).length := by rw [hmap]
      simpa using h2
    rw [hmap, hlen]
    exact ⟨hkeys, le_refl _, hm⟩
  · have hk3 : k = bs.length + 1 := by omega
    have hnot : k ∉ bs.map Prod.fst := by
      rw [hkeys]
      intro hmem'
      have := List.mem_range'_1.mp hmem'
      omega
    have heq := keys_ddAdd_notMem bs k x hnot
    rw [heq]
    refine ⟨?_, by simp, by simp [hk3]⟩
    rw [List.map_append, hkeys, hk3]
    simp [List.range'_concat, Nat.add_comm]

/-- Effect of one `_update_degrees_add` endpoint pass: the invariant is
preserved, the vertex's degree rises by one, and the degree sum rises by one. -/
theorem DInv_addVertex (ds : List (String × Nat)) (bs : List (Nat × Int))
    (h : DInv ds bs) (v : String) :
    DInv (update_degrees_add_vertex (ds, bs) v).1
      (update_degrees_add_vertex (ds, bs) v).2 ∧
    (∀ w, dGet (update_degrees_add_vertex (ds, bs) v).1 w =
      dGet ds w + (if w = v then 1 else 0)) ∧
    sumDeg (update_degrees_add_vertex (ds, bs) v).1 = sumDeg ds + 1 := by
  cases hm : dMem ds v with
  | false =>
    have hred : update_degrees_add_vertex (ds, bs) v =
        (dSet ds v 1, ddAdd bs 1 1) := by
      simp [update_degrees_add_vertex, hm]
    rw [hred]
    dsimp only
    have happ : dSet ds v 1 = ds ++ [(v, 1)] := keys_dSet_notMem ds v 1 hm
    have hshape := bucket_keys_shape bs 1 1 h.keys (le_refl 1) (by omega)
    have hpos : 1 ≤ (ddAdd bs 1 1).length := by
      rcases Nat.eq_zero_or_pos bs.length with h0 | h0
      · have hbs : bs = [] := List.length_eq_zero.mp h0
        subst hbs
        simp [ddAdd]
      · have := hshape.2
        omega
    refine ⟨⟨?_, hshape.1, ?_, ?_⟩, ?_, ?_⟩
    · rw [happ, List.map_append]
      have hv : v ∉ ds.map Prod.fst := by
        intro hmem
        rw [← dMem_iff] at hmem
        rw [hm] at hmem
        exact Bool.false_ne_true hmem
      simp [List.nodup_append, h.nodup, hv]
    · intro p hp
      rw [happ] at hp
      rcases List.mem_append.mp hp with hp1 | hp1
      · have hb := h.bounds p hp1
        have h4 := hshape.2
        exact ⟨hb.1, by omega⟩
      · have hpv : p = (v, 1) := List.mem_singleton.mp hp1
        subst hpv
        exact ⟨le_refl 1, hpos⟩
    · intro d
      have ha := alGet_ddAdd bs 1 1 d
      have hc := h.counts d
      rw [happ, countDeg_append_single, ha, hc]
      rcases eq_or_ne d 1 with h1 | h1
      · subst h1; simp
      · simp [h1, Ne.symm h1]
    · intro w
      rw [dGet_dSet]
      rcases eq_or_ne w v with h1 | h1
      · subst h1
        simp [dMem_false_dGet ds w hm]
      · simp [h1]
    · rw [happ, sumDeg_append_single]
  | true =>
    have hred : update_degrees_add_vertex (ds, bs) v =
        (dSet ds v (dGet ds v + 1),
          ddAdd (ddAdd bs (dGet ds v) (-1)) (dGet ds v + 1) 1) := by
      simp [update_degrees_add_vertex, hm]
    rw [hred]
    dsimp only
    have hbd := h.bounds _ (dGet_mem ds v hm)
    have hshape1 := bucket_keys_shape bs (dGet ds v) (-1) h.keys
      (by exact hbd.1) (by omega)
    have hlen1 : (ddAdd bs (dGet ds v) (-1)).length = bs.length := by
      have hmem : dGet ds v ∈ bs.map Prod.fst := by
        rw [h.keys]
        exact List.mem_range'_1.mpr ⟨hbd.1, by omega⟩
      have h2 := keys_ddAdd_mem bs (dGet ds v) (-1) hmem
      have h3 : ((ddAdd bs (dGet ds v) (-1)).map Prod.fst).length =
          (bs.map Prod.fst).length := by rw [h2]
      simpa using h3
    have hshape2 := bucket_keys_shape (ddAdd bs (dGet ds v) (-1))
      (dGet ds v + 1) 1 hshape1.1 (by omega) (by omega)
    refine ⟨⟨?_, hshape2.1, ?_, ?_⟩, ?_, ?_⟩
    · rw [keys_dSet_mem ds v _ hm]
      exact h.nodup
    · intro p hp
      rcases mem_dSet ds v _ p hp with hp2 | hp2
      · subst hp2
        have h4 := hshape2.2.2
        exact ⟨by omega, by omega⟩
      · have hb := h.bounds p hp2
        have h4 := hshape2.2.1
        exact ⟨hb.1, by omega⟩
    · intro d
      have ha1 := alGet_ddAdd bs (dGet ds v) (-1) d
      have ha2 := alGet_ddAdd (ddAdd bs (dGet ds v) (-1)) (dGet ds v + 1) 1 d
      have hc := countDeg_dSet ds v (dGet ds v + 1) hm d
      have hcount := h.counts d
      have hne : ¬ (dGet ds v = dGet ds v + 1) := by omega
      have hne2 : ¬ (dGet ds v + 1 = dGet ds v) := by omega
      rcases eq_or_ne d (dGet ds v) with h4 | h4
      · subst h4
        simp [hne, hne2] at ha1 ha2 hc
        omega
      · rcases eq_or_ne d (dGet ds v + 1) with h5 | h5
        · subst h5
          simp [hne, hne2] at ha1 ha2 hc
          omega
        · simp [h4, h5, Ne.symm h4, Ne.symm h5] at ha1 ha2 hc
          omega
    · intro w
      rw [dGet_dSet]
      rcases eq_or_ne w v with h1 | h1
      · subst h1
        simp
      · simp [h1]
    · have := sumDeg_dSet ds v (dGet ds v + 1) hm
      omega

/-- Effect of one `_update_degrees_remove` endpoint pass on a vertex of
positive degree: the invariant is preserved, the vertex's degree drops by one
(with removal from the ledger at zero), and the degree sum drops by one. -/
theorem DInv_removeVertex (ds : List (String × Nat)) (bs : List (Nat × Int))
    (h : DInv ds bs) (v : String) (hv : 1 ≤ dGet ds v) :
    DInv (update_degrees_remove_vertex (ds, bs) v).1
      (update_degrees_remove_vertex (ds, bs) v).2 ∧
    (∀ w, dGet (update_degrees_remove_vertex (ds, bs) v).1 w +
      (if w = v then 1 else 0) = dGet ds w) ∧
    sumDeg (update_degrees_remove_vertex (ds, bs) v).1 + 1 = sumDeg ds := by
  have hm : dMem ds v = true := dMem_of_dGet_pos ds v hv
  have hbd' := h.bounds _ (dGet_mem ds v hm)
  have hbd : 1 ≤ dGet ds v ∧ dGet ds v ≤ bs.length := hbd'
  have hself : dGet (dSet ds v (dGet ds v - 1)) v = dGet ds v - 1 := by
    rw [dGet_dSet]; simp
  have hmem1 : dMem (dSet ds v (dGet ds v - 1)) v = true := by
    rw [dMem_iff, keys_dSet_mem ds v _ hm, ← dMem_iff]; exact hm
  have hnd1 : ((dSet ds v (dGet ds v - 1)).map Prod.fst).Nodup := by
    rw [keys_dSet_mem ds v _ hm]; exact h.nodup
  have hmemD : dGet ds v ∈ bs.map Prod.fst := by
    rw [h.keys]
    exact List.mem_range'_1.mpr ⟨hbd.1, by omega⟩
  have hb1map := keys_ddAdd_mem bs (dGet ds v) (-1) hmemD
  have hb1len : (ddAdd bs (dGet ds v) (-1)).length = bs.length := by
    have h2 : ((ddAdd bs (dGet ds v) (-1)).map Prod.fst).length =
        (bs.map Prod.fst).length := by rw [hb1map]
    simpa using h2
  rcases eq_or_ne (dGet ds v) 1 with hD | hD
  · have hcond : dGet (dSet ds v (dGet ds v - 1)) v = 0 := by
      rw [hself]; omega
    have hred : update_degrees_remove_vertex (ds, bs) v =
        (dDel (dSet ds v (dGet ds v - 1)) v, ddAdd bs (dGet ds v) (-1)) := by
      simp only [update_degrees_remove_vertex]
      rw [if_pos hcond]
    rw [hred]
    dsimp only
    refine ⟨⟨?_, ?_, ?_, ?_⟩, ?_, ?_⟩
    · have hsub : List.Sublist (dDel (dSet ds v (dGet ds v - 1)) v)
        (dSet ds v (dGet ds v - 1)) := List.filter_sublist _
      exact List.Nodup.sublist (hsub.map Prod.fst) hnd1
    · rw [hb1map, hb1len]
      exact h.keys
    · intro p hp
      have hp1 : p ∈ dSet ds v (dGet ds v - 1) ∧ p.1 ≠ v := by
        have := List.mem_filter.mp hp
        refine ⟨this.1, ?_⟩
        have h2 := this.2
        simpa using h2
      rcases mem_dSet ds v _ p hp1.1 with hpv | hpv
      · exact absurd (by rw [hpv]) hp1.2
      · have hb := h.bounds p hpv
        rw [hb1len]
        exact hb
    · intro d
      have ha1 := alGet_ddAdd bs (dGet ds v) (-1) d
      have hc1 := countDeg_dSet ds v (dGet ds v - 1) hm d
      have hc2 := countDeg_dDel (dSet ds v (dGet ds v - 1)) v hnd1 hmem1 d
      have hcount := h.counts d
      rw [hself] at hc2
      rcases eq_or_ne d 1 with h5 | h5
      · subst h5
        simp [hD] at ha1 hc1 hc2 ⊢
        omega
      · rcases eq_or_ne d 0 with h6 | h6
        · subst h6
          simp [hD] at ha1 hc1 hc2 ⊢
          omega
        · simp [hD, h5, h6, Ne.symm h5, Ne.symm h6] at ha1 hc1 hc2 ⊢
          omega
    · intro w
      rw [dGet_dDel]
      rcases eq_or_ne w v with h1 | h1
      · subst h1
        simp
        omega
      · simp [h1, dGet_dSet]
    · have hs1 := sumDeg_dSet ds v (dGet ds v - 1) hm
      have hs2 := sumDeg_dDel (dSet ds v (dGet ds v - 1)) v hnd1 hmem1
      rw [hself] at hs2
      omega
  · have hD2 : 2 ≤ dGet ds v := by omega
    have hcond : ¬ (dGet (dSet ds v (dGet ds v - 1)) v = 0) := by
      rw [hself]; omega
    have hred : update_degrees_remove_vertex (ds, bs) v =
        (dSet ds v (dGet ds v - 1),
          ddAdd (ddAdd bs (dGet ds v) (-1)) (dGet ds v - 1) 1) := by
      simp only [update_degrees_remove_vertex]
      rw [if_neg hcond]
    rw [hred]
    dsimp only
    have hmemD1 : dGet ds v - 1 ∈ (ddAdd bs (dGet ds v) (-1)).map Prod.fst := by
      rw [hb1map, h.keys]
      exact List.mem_range'_1.mpr ⟨by omega, by omega⟩
    have hb2map := keys_ddAdd_mem _ (dGet ds v - 1) 1 hmemD1
    have hb2len : (ddAdd (ddAdd bs (dGet ds v) (-1)) (dGet ds v - 1) 1).length =
        (ddAdd bs (dGet ds v) (-1)).length := by
      have h2 : ((ddAdd (ddAdd bs (dGet ds v) (-1)) (dGet ds v - 1) 1).map
          Prod.fst).length = ((ddAdd bs (dGet ds v) (-1)).map Prod.fst).length := by
        rw [hb2map]
      simpa using h2
    refine ⟨⟨?_, ?_, ?_, ?_⟩, ?_, ?_⟩
    · exact hnd1
    · rw [hb2map, hb2len, hb1map, hb1len]
      exact h.keys
    · intro p hp
      rcases mem_dSet ds v _ p hp with hpv | hpv
      · rw [hpv]
        refine ⟨by omega, ?_⟩
        rw [hb2len, hb1len]
        omega
      · have hb := h.bounds p hpv
        rw [hb2len, hb1len]
        exact hb
    · intro d
      have ha1 := alGet_ddAdd bs (dGet ds v) (-1) d
      have ha2 := alGet_ddAdd (ddAdd bs (dGet ds v) (-1)) (dGet ds v - 1) 1 d
      have hc1 := countDeg_dSet ds v (dGet ds v - 1) hm d
      have hcount := h.counts d
      have hne : ¬ (dGet ds v = dGet ds v - 1) := by omega
      have hne2 : ¬ (dGet ds v - 1 = dGet ds v) := by omega
      rcases eq_or_ne d (dGet ds v) with h5 | h5
      · subst h5
        simp [hne, hne2] at ha1 ha2 hc1
        omega
      · rcases eq_or_ne d (dGet ds v - 1) with h6 | h6
        · subst h6
          simp [hne, hne2] at ha1 ha2 hc1
          omega
        · simp [h5, h6, Ne.symm h5, Ne.symm h6] at ha1 ha2 hc1
          omega
    · intro w
      rw [dGet_dSet]
      rcases eq_or_ne w v with h1 | h1
      · subst h1
        simp
        omega
      · simp [h1]
    · have hs1 := sumDeg_dSet ds v (dGet ds v - 1) hm
      omega

/-- Effect of `_update_degrees_add` for a whole edge (both endpoints). -/
theorem DInv_update_add_pair (ds : List (String × Nat)) (bs : List (Nat × Int))
    (h : DInv ds bs) (e : Edge) :
    DInv (update_degrees_add_pair (ds, bs) e).1
      (update_degrees_add_pair (ds, bs) e).2 ∧
    (∀ w, dGet (update_degrees_add_pair (ds, bs) e).1 w =
      dGet ds w + inc1 e w) ∧
    sumDeg (update_degrees_add_pair (ds, bs) e).1 = sumDeg ds + 2 := by
  obtain ⟨h1, h2, h3⟩ := DInv_addVertex ds bs h e.v1
  obtain ⟨h4, h5, h6⟩ :=
    DInv_addVertex (update_degrees_add_vertex (ds, bs) e.v1).1
      (update_degrees_add_vertex (ds, bs) e.v1).2 h1 e.v2
  have heta : ((update_degrees_add_vertex (ds, bs) e.v1).1,
      (update_degrees_add_vertex (ds, bs) e.v1).2) =
      update_degrees_add_vertex (ds, bs) e.v1 := rfl
  rw [heta] at h4 h5 h6
  have hpair : update_degrees_add_pair (ds, bs) e =
      update_degrees_add_vertex (update_degrees_add_vertex (ds, bs) e.v1)
        e.v2 := rfl
  rw [hpair]
  refine ⟨h4, ?_, by omega⟩
  intro w
  rw [h5 w, h2 w, inc1]
  omega

/-- Effect of `_update_degrees_remove` for a whole edge whose incidence the
ledger still covers (so neither endpoint lookup underflows). -/
theorem DInv_update_remove (ds : List (String × Nat)) (bs : List (Nat × Int))
    (h : DInv ds bs) (e : Edge) (hinc : ∀ w, inc1 e w ≤ dGet ds w) :
    DInv (update_degrees_remove (ds, bs) e).1
      (update_degrees_remove (ds, bs) e).2 ∧
    (∀ w, dGet (update_degrees_remove (ds, bs) e).1 w + inc1 e w = dGet ds w) ∧
    sumDeg (update_degrees_remove (ds, bs) e).1 + 2 = sumDeg ds := by
  have hv1 : 1 ≤ dGet ds e.v1 := by
    have := hinc e.v1
    rw [inc1] at this
    simp at this
    omega
  obtain ⟨h1, h2, h3⟩ := DInv_removeVertex ds bs h e.v1 hv1
  have hv2 : 1 ≤ dGet (update_degrees_remove_vertex (ds, bs) e.v1).1 e.v2 := by
    have ha := h2 e.v2
    have hb := hinc e.v2
    rw [inc1] at hb
    rcases eq_or_ne e.v2 e.v1 with hee | hee
    · rw [hee] at ha ⊢
      simp at ha
      rw [hee] at hb
      simp at hb
      omega
    · simp [hee] at ha
      simp [hee] at hb
      omega
  obtain ⟨h4, h5, h6⟩ :=
    DInv_removeVertex (update_degrees_remove_vertex (ds, bs) e.v1).1
      (update_degrees_remove_vertex (ds, bs) e.v1).2 h1 e.v2 hv2
  have heta : ((update_degrees_remove_vertex (ds, bs) e.v1).1,
      (update_degrees_remove_vertex (ds, bs) e.v1).2) =
      update_degrees_remove_vertex (ds, bs) e.v1 := rfl
  rw [heta] at h4 h5 h6
  have hpair : update_degrees_remove (ds, bs) e =
      update_degrees_remove_vertex (update_degrees_remove_vertex (ds, bs) e.v1)
        e.v2 := rfl
  rw [hpair]
  refine ⟨h4, ?_, by omega⟩
  intro w
  have ha := h5 w
  have hb := h2 w
  rw [inc1]
  omega

theorem incCount_nil (w : String) : incCount [] w = 0 := rfl

theorem incCount_cons (e : Edge) (l : List Edge) (w : String) :
    incCount (e :: l) w = inc1 e w + incCount l w := by
  simp [incCount]

theorem incCount_append (l1 l2 : List Edge) (w : String) :
    incCount (l1 ++ l2) w = incCount l1 w + incCount l2 w := by
  simp [incCount]

/-- Folding the remove pass over a batch of edges whose incidences the ledger
covers removes exactly those incidences. -/
theorem DInv_fold_remove : ∀ (l : List Edge) (ds : List (String × Nat))
    (bs : List (Nat × Int)), DInv ds bs → ∀ f : String → Nat,
    (∀ w, dGet ds w = incCount l w + f w) →
    DInv (l.foldl update_degrees_remove (ds, bs)).1
      (l.foldl update_degrees_remove (ds, bs)).2 ∧
    (∀ w, dGet (l.foldl update_degrees_remove (ds, bs)).1 w = f w) ∧
    sumDeg (l.foldl update_degrees_remove (ds, bs)).1 + 2 * l.length =
      sumDeg ds
  | [], ds, bs, h, f, hf => by
    simp only [List.foldl_nil]
    refine ⟨h, ?_, by simp⟩
    intro w
    have := hf w
    rw [incCount_nil] at this
    omega
  | e :: rest, ds, bs, h, f, hf => by
    have hinc : ∀ w, inc1 e w ≤ dGet ds w := by
      intro w
      have := hf w
      rw [incCount_cons] at this
      omega
    obtain ⟨h1, h2, h3⟩ := DInv_update_remove ds bs h e hinc
    have heta : ((update_degrees_remove (ds, bs) e).1,
        (update_degrees_remove (ds, bs) e).2) =
        update_degrees_remove (ds, bs) e := rfl
    have hf2 : ∀ w, dGet (update_degrees_remove (ds, bs) e).1 w =
        incCount rest w + f w := by
      intro w
      have ha := h2 w
      have hb := hf w
      rw [incCount_cons] at hb
      omega
    obtain ⟨h4, h5, h6⟩ := DInv_fold_remove rest
      (update_degrees_remove (ds, bs) e).1
      (update_degrees_remove (ds, bs) e).2 h1 f hf2
    rw [heta] at h4 h5 h6
    have hfold : (e :: rest).foldl update_degrees_remove (ds, bs) =
        rest.foldl update_degrees_remove (update_degrees_remove (ds, bs) e) :=
      rfl
    rw [hfold]
    refine ⟨h4, h5, ?_⟩
    simp only [List.length_cons]
    omega

/-- `removeSweep` on a list with no edge at or below the threshold: no state
change, `start_index` untouched. -/
theorem removeSweep_none : ∀ (l : List Edge) (th : Int)
    (st : List (String × Nat) × List (Nat × Int)) (idx si : Nat),
    (∀ e ∈ l, ¬ e.created_time ≤ th) →
    removeSweep th l st idx si = (st, si)
  | [], th, st, idx, si, _ => rfl
  | e :: rest, th, st, idx, si, h => by
    have he : ¬ e.created_time ≤ th := h e (List.mem_cons_self e rest)
    rw [removeSweep, if_neg he]
    exact removeSweep_none rest th st (idx + 1) si
      (fun x hx => h x (List.mem_cons_of_mem e hx))

/-- `removeSweep` on a threshold-prefix followed by a beyond-threshold suffix:
the state is the fold of the remove pass over the prefix, and `start_index`
ends at the prefix length (when the scan started at index `idx`, at
`idx + |prefix|`; untouched when the prefix is empty). -/
theorem removeSweep_split : ∀ (l1 l2 : List Edge) (th : Int)
    (st : List (String × Nat) × List (Nat × Int)) (idx si : Nat),
    (∀ e ∈ l1, e.created_time ≤ th) → (∀ e ∈ l2, ¬ e.created_time ≤ th) →
    removeSweep th (l1 ++ l2) st idx si =
      (l1.foldl update_degrees_remove st,
        if l1 = [] then si else idx + l1.length)
  | [], l2, th, st, idx, si, _, h2 => by
    simp only [List.nil_append, List.foldl_nil, if_pos rfl]
    exact removeSweep_none l2 th st idx si h2
  | e :: rest, l2, th, st, idx, si, h1, h2 => by
    have he : e.created_time ≤ th := h1 e (List.mem_cons_self e rest)
    have hrec := removeSweep_split rest l2 th
      (update_degrees_remove st e) (idx + 1) (idx + 1)
      (fun x hx => h1 x (List.mem_cons_of_mem e hx)) h2
    rw [List.cons_append, removeSweep, if_pos he, hrec]
    rcases eq_or_ne rest ([] : List Edge) with hr | hr
    · subst hr
      simp
    · have harith : idx + 1 + rest.length = idx + (rest.length + 1) := by omega
      simp [hr, harith]

/-! ## Edge-list order lemmas -/

/-- The edge sequence is sorted non-decreasing by creation timestamp. -/
def edgesSorted (l : List Edge) : Prop :=
  List.Pairwise (fun a b => a.created_time ≤ b.created_time) l

/-- In a sorted edge list, everything `dropWhile` leaves behind fails the
predicate, provided the predicate is downward closed along timestamps. -/
theorem sorted_dropWhile_false (p : Edge → Bool)
    (hmono : ∀ a b : Edge, a.created_time ≤ b.created_time → p b = true →
      p a = true) :
    ∀ l : List Edge, edgesSorted l → ∀ e ∈ List.dropWhile p l, p e = false
  | [], _, e, he => by simp [List.dropWhile] at he
  | a :: rest, hs, e, he => by
    rw [edgesSorted, List.pairwise_cons] at hs
    rw [List.dropWhile_cons] at he
    by_cases hp : p a = true
    · rw [if_pos hp] at he
      exact sorted_dropWhile_false p hmono rest hs.2 e he
    · rw [if_neg hp] at he
      rcases List.mem_cons.mp he with rfl | hmem
      · simpa using hp
      · cases hpe : p e with
        | false => rfl
        | true => exact absurd (hmono a e (hs.1 e hmem) hpe) hp

theorem take_takeWhile_length {α : Type} (p : α → Bool) :
    ∀ l : List α, List.take (List.takeWhile p l).length l = List.takeWhile p l
  | [] => rfl
  | a :: l => by
    rw [List.takeWhile_cons]
    by_cases hp : p a = true
    · rw [if_pos hp]
      simp [take_takeWhile_length p l]
    · rw [if_neg hp]
      simp

theorem drop_takeWhile_length {α : Type} (p : α → Bool) :
    ∀ l : List α, List.drop (List.takeWhile p l).length l = List.dropWhile p l
  | [] => rfl
  | a :: l => by
    rw [List.takeWhile_cons, List.dropWhile_cons]
    by_cases hp : p a = true
    · rw [if_pos hp, if_pos hp]
      simp [drop_takeWhile_length p l]
    · rw [if_neg hp, if_neg hp]
      simp

theorem takeWhile_all {α : Type} (p : α → Bool) :
    ∀ l : List α, (∀ x ∈ l, p x = true) → List.takeWhile p l = l
  | [], _ => rfl
  | a :: l, h => by
    rw [List.takeWhile_cons, if_pos (h a (List.mem_cons_self a l)),
      takeWhile_all p l (fun x hx => h x (List.mem_cons_of_mem a hx))]

theorem takeWhile_append_not {α : Type} (p : α → Bool) (a : α)
    (h : p a = false) :
    ∀ l : List α, List.takeWhile p (l ++ [a]) = List.takeWhile p l
  | [] => by
    simp only [List.nil_append, List.takeWhile_cons, h]
    rfl
  | b :: l => by
    rw [List.cons_append, List.takeWhile_cons, List.takeWhile_cons]
    by_cases hb : p b = true
    · rw [if_pos hb, if_pos hb, takeWhile_append_not p a h l]
    · rw [if_neg hb, if_neg hb]

/-- `_remove_edges` on a sorted edge list: the remaining edges are exactly the
beyond-threshold suffix, and the ledger/histogram absorb one remove pass per
evicted edge. -/
theorem remove_edges_spec (g : VenmoGraph) (th : Int)
    (hs : edgesSorted g.edges) :
    remove_edges g th =
      ⟨List.dropWhile (fun e => decide (e.created_time ≤ th)) g.edges,
       ((List.takeWhile (fun e => decide (e.created_time ≤ th)) g.edges).foldl
          update_degrees_remove (g.degrees, g.degree_buckets)).1,
       ((List.takeWhile (fun e => decide (e.created_time ≤ th)) g.edges).foldl
          update_degrees_remove (g.degrees, g.degree_buckets)).2⟩ := by
  have h1 : ∀ e ∈ List.takeWhile (fun e => decide (e.created_time ≤ th))
      g.edges, e.created_time ≤ th := by
    intro e he
    have := List.mem_takeWhile_imp he
    simpa using this
  have h2 : ∀ e ∈ List.dropWhile (fun e => decide (e.created_time ≤ th))
      g.edges, ¬ e.created_time ≤ th := by
    intro e he
    have := sorted_dropWhile_false (fun e => decide (e.created_time ≤ th))
      (fun a b hab hpb => by
        simp only [decide_eq_true_eq] at hpb ⊢
        omega) g.edges hs e he
    simpa using this
  have hsweep := removeSweep_split
    (List.takeWhile (fun e => decide (e.created_time ≤ th)) g.edges)
    (List.dropWhile (fun e => decide (e.created_time ≤ th)) g.edges)
    th (g.degrees, g.degree_buckets) 0 0 h1 h2
  rw [List.takeWhile_append_dropWhile] at hsweep
  simp only [remove_edges]
  rw [hsweep]
  have hsi : (if List.takeWhile (fun e => decide (e.created_time ≤ th))
        g.edges = [] then 0
      else 0 + (List.takeWhile (fun e => decide (e.created_time ≤ th))
        g.edges).length) =
      (List.takeWhile (fun e => decide (e.created_time ≤ th))
        g.edges).length := by
    split
    · simp only [*]
      rfl
    · omega
  rw [hsi]
  rw [drop_takeWhile_length]

/-- The `_insert_edge` right-to-left scan on a sorted list computes the length
of the strictly-earlier prefix (ties insert in front of existing equal
timestamps, keeping the order non-decreasing). -/
theorem insertIndexRev_sorted (e : Edge) (l : List Edge) (hs : edgesSorted l) :
    insertIndexRev e l.reverse =
      (List.takeWhile (fun x => decide (x.created_time < e.created_time))
        l).length := by
  induction l using List.reverseRecOn with
  | nil => rfl
  | append_singleton l' a ih =>
    have hsplit := List.pairwise_append.mp hs
    rw [List.reverse_append]
    simp only [List.reverse_singleton, List.singleton_append]
    rw [insertIndexRev]
    by_cases hlt : a.created_time < e.created_time
    · rw [if_pos hlt]
      have hall : ∀ x ∈ l' ++ [a],
          (fun x : Edge => decide (x.created_time < e.created_time)) x =
            true := by
        intro x hx
        rcases List.mem_append.mp hx with hx | hx
        · have := hsplit.2.2 x hx a (List.mem_singleton_self a)
          simp only [decide_eq_true_eq]
          omega
        · have hxa : x = a := List.mem_singleton.mp hx
          subst hxa
          simp only [decide_eq_true_eq]
          exact hlt
      rw [takeWhile_all _ _ hall]
      simp
    · rw [if_neg hlt]
      rw [ih hsplit.1, takeWhile_append_not _ a (by simpa using hlt)]

/-- `_insert_edge` on a sorted list: the new edge lands between the strictly
earlier edges and the rest. -/
theorem insert_edge_spec (g : VenmoGraph) (e : Edge)
    (hs : edgesSorted g.edges) :
    insert_edge g e =
      ⟨List.takeWhile (fun x => decide (x.created_time < e.created_time))
          g.edges ++
        e :: List.dropWhile (fun x => decide (x.created_time < e.created_time))
          g.edges,
       g.degrees, g.degree_buckets⟩ := by
  simp only [insert_edge]
  rw [insertIndexRev_sorted e g.edges hs, take_takeWhile_length,
    drop_takeWhile_length]

/-- Inserting at the computed position keeps the sequence sorted. -/
theorem sorted_insert (l : List Edge) (e : Edge) (hs : edgesSorted l) :
    edgesSorted
      (List.takeWhile (fun x => decide (x.created_time < e.created_time)) l ++
        e :: List.dropWhile (fun x => decide (x.created_time < e.created_time))
          l) := by
  have hdrop : ∀ x ∈ List.dropWhile
      (fun x => decide (x.created_time < e.created_time)) l,
      e.created_time ≤ x.created_time := by
    intro x hx
    have := sorted_dropWhile_false
      (fun x => decide (x.created_time < e.created_time))
      (fun a b hab hpb => by
        simp only [decide_eq_true_eq] at hpb ⊢
        omega) l hs x hx
    simp only [decide_eq_false_iff_not] at this
    omega
  rw [edgesSorted, List.pairwise_append]
  refine ⟨List.Pairwise.sublist (List.takeWhile_sublist _) hs, ?_, ?_⟩
  · rw [List.pairwise_cons]
    exact ⟨hdrop, List.Pairwise.sublist (List.dropWhile_sublist _) hs⟩
  · intro x hx y hy
    have hxlt : x.created_time < e.created_time := by
      have := List.mem_takeWhile_imp hx
      simpa using this
    rcases List.mem_cons.mp hy with rfl | hy
    · omega
    · have := hdrop y hy
      omega

/-- In a sorted edge list the last element carries the maximal timestamp. -/
theorem sorted_getLast_max (l : List Edge) (hs : edgesSorted l) (last : Edge)
    (hl : l.getLast? = some last) :
    ∀ x ∈ l, x.created_time ≤ last.created_time := by
  obtain ⟨ys, rfl⟩ := List.getLast?_eq_some_iff.mp hl
  intro x hx
  rcases List.mem_append.mp hx with hx | hx
  · exact (List.pairwise_append.mp hs).2.2 x hx last (List.mem_singleton_self _)
  · have hxl : x = last := List.mem_singleton.mp hx
    subst hxl
    exact le_refl _

/-! ## The full graph invariant -/

/-- Everything that holds of every reachable `VenmoGraph`: ledger/histogram
consistency, the ledger mirroring the incidence counts of the window, the
degree-sum identity, timestamp order, and the window bound. -/
structure GInv (g : VenmoGraph) : Prop where
  dinv : DInv g.degrees g.degree_buckets
  deg_inc : ∀ w, dGet g.degrees w = incCount g.edges w
  sum_deg : sumDeg g.degrees = 2 * g.edges.length
  sorted : edgesSorted g.edges
  window : ∀ e ∈ g.edges, newest_time g - window_seconds < e.created_time

theorem GInv_empty : GInv VenmoGraph.empty := by
  refine ⟨⟨?_, ?_, ?_, ?_⟩, ?_, ?_, ?_, ?_⟩
  · simp [VenmoGraph.empty]
  · simp [VenmoGraph.empty]
  · intro p hp
    simp [VenmoGraph.empty] at hp
  · intro d
    simp [VenmoGraph.empty, alGet, countDeg]
  · intro w
    simp [VenmoGraph.empty, dGet, incCount]
  · simp [VenmoGraph.empty, sumDeg]
  · simp [VenmoGraph.empty, edgesSorted]
  · intro e he
    simp [VenmoGraph.empty] at he

/-- The combined effect of `_insert_edge` followed by `_update_degrees_add`
on a graph state satisfying the bookkeeping invariants. -/
theorem add_step (g1 : VenmoGraph) (e : Edge)
    (hA : DInv g1.degrees g1.degree_buckets)
    (hB : ∀ w, dGet g1.degrees w = incCount g1.edges w)
    (hC : sumDeg g1.degrees = 2 * g1.edges.length)
    (hD : edgesSorted g1.edges) :
    (update_degrees_add (insert_edge g1 e) e).edges =
      List.takeWhile (fun x => decide (x.created_time < e.created_time))
          g1.edges ++
        e :: List.dropWhile (fun x => decide (x.created_time < e.created_time))
          g1.edges ∧
    DInv (update_degrees_add (insert_edge g1 e) e).degrees
      (update_degrees_add (insert_edge g1 e) e).degree_buckets ∧
    (∀ w, dGet (update_degrees_add (insert_edge g1 e) e).degrees w =
      incCount (update_degrees_add (insert_edge g1 e) e).edges w) ∧
    sumDeg (update_degrees_add (insert_edge g1 e) e).degrees =
      2 * (update_degrees_add (insert_edge g1 e) e).edges.length ∧
    edgesSorted (update_degrees_add (insert_edge g1 e) e).edges := by
  have hins := insert_edge_spec g1 e hD
  have hedges : (update_degrees_add (insert_edge g1 e) e).edges =
      (insert_edge g1 e).edges := rfl
  have hdeg : (update_degrees_add (insert_edge g1 e) e).degrees =
      (update_degrees_add_pair ((insert_edge g1 e).degrees,
        (insert_edge g1 e).degree_buckets) e).1 := rfl
  have hbuck : (update_degrees_add (insert_edge g1 e) e).degree_buckets =
      (update_degrees_add_pair ((insert_edge g1 e).degrees,
        (insert_edge g1 e).degree_buckets) e).2 := rfl
  have hd1 : (insert_edge g1 e).degrees = g1.degrees := rfl
  have hb1 : (insert_edge g1 e).degree_buckets = g1.degree_buckets := rfl
  obtain ⟨hp1, hp2, hp3⟩ := DInv_update_add_pair g1.degrees g1.degree_buckets
    hA e
  have he2 : (insert_edge g1 e).edges =
      List.takeWhile (fun x => decide (x.created_time < e.created_time))
          g1.edges ++
        e :: List.dropWhile (fun x => decide (x.created_time < e.created_time))
          g1.edges := by
    rw [hins]
  have hcnt : ∀ w, incCount ((insert_edge g1 e).edges) w =
      incCount g1.edges w + inc1 e w := by
    intro w
    rw [he2]
    conv_rhs => rw [← List.takeWhile_append_dropWhile
      (p := fun x => decide (x.created_time < e.created_time)) (l := g1.edges)]
    rw [incCount_append, incCount_append, incCount_cons]
    omega
  have hlen : ((insert_edge g1 e).edges).length = g1.edges.length + 1 := by
    rw [he2]
    conv_rhs => rw [← List.takeWhile_append_dropWhile
      (p := fun x => decide (x.created_time < e.created_time)) (l := g1.edges)]
    simp only [List.length_append, List.length_cons]
    omega
  refine ⟨by rw [hedges, he2], ?_, ?_, ?_, ?_⟩
  · rw [hdeg, hbuck, hd1, hb1]
    exact hp1
  · intro w
    rw [hdeg, hd1, hb1, hedges, hp2 w, hB w, hcnt w]
  · rw [hdeg, hd1, hb1, hedges, hp3, hC, hlen]
    omega
  · rw [hedges, he2]
    exact sorted_insert g1.edges e hD

theorem getLast_insert_middle (l1 l2 : List Edge) (e : Edge) (h : l2 ≠ []) :
    (l1 ++ e :: l2).getLast? = (l1 ++ l2).getLast? := by
  rw [List.getLast?_append, List.getLast?_append]
  congr 1
  rcases l2 with _ | ⟨b, t⟩
  · exact absurd rfl h
  · exact List.getLast?_cons_cons

/-- `add_edge` preserves the graph invariant. -/
theorem GInv_add_edge (g : VenmoGraph) (e : Edge) (h : GInv g) :
    GInv (add_edge g e) := by
  by_cases hw : within_time_window g e = true
  · have hadd : add_edge g e =
        update_degrees_add (insert_edge
          (if newest_time g < e.created_time then
            remove_edges g (e.created_time - window_seconds) else g) e) e := by
      simp [add_edge, hw]
    rw [hadd]
    by_cases hnew : newest_time g < e.created_time
    · rw [if_pos hnew]
      have hrm := remove_edges_spec g (e.created_time - window_seconds) h.sorted
      set p := fun x : Edge =>
        decide (x.created_time ≤ e.created_time - window_seconds) with hp
      generalize hg1 : remove_edges g (e.created_time - window_seconds) = g1
      rw [hg1] at hrm
      have hg1e : g1.edges = List.dropWhile p g.edges := by rw [hrm]
      have hg1d : g1.degrees = ((List.takeWhile p g.edges).foldl
          update_degrees_remove (g.degrees, g.degree_buckets)).1 := by
        rw [hrm]
      have hg1b : g1.degree_buckets = ((List.takeWhile p g.edges).foldl
          update_degrees_remove (g.degrees, g.degree_buckets)).2 := by
        rw [hrm]
      have hsplitinc : ∀ w, dGet g.degrees w =
          incCount (List.takeWhile p g.edges) w +
            incCount (List.dropWhile p g.edges) w := by
        intro w
        rw [h.deg_inc w]
        conv_lhs => rw [← List.takeWhile_append_dropWhile (p := p)
          (l := g.edges)]
        rw [incCount_append]
      obtain ⟨hf1, hf2, hf3⟩ := DInv_fold_remove (List.takeWhile p g.edges)
        g.degrees g.degree_buckets h.dinv
        (fun w => incCount (List.dropWhile p g.edges) w) hsplitinc
      have hA : DInv g1.degrees g1.degree_buckets := by
        rw [hg1d, hg1b]; exact hf1
      have hB : ∀ w, dGet g1.degrees w = incCount g1.edges w := by
        intro w
        rw [hg1d, hg1e]
        exact hf2 w
      have hC : sumDeg g1.degrees = 2 * g1.edges.length := by
        rw [hg1d, hg1e]
        have hlen : g.edges.length = (List.takeWhile p g.edges).length +
            (List.dropWhile p g.edges).length := by
          conv_lhs => rw [← List.takeWhile_append_dropWhile (p := p)
            (l := g.edges)]
          rw [List.length_append]
        have hsd := h.sum_deg
        omega
      have hD : edgesSorted g1.edges := by
        rw [hg1e]
        exact List.Pairwise.sublist (List.dropWhile_sublist _) h.sorted
      have hlt : ∀ x ∈ g1.edges, x.created_time < e.created_time := by
        intro x hx
        rw [hg1e] at hx
        have hxg : x ∈ g.edges := (List.dropWhile_sublist _).subset hx
        rcases hlast : g.edges.getLast? with _ | last
        · rw [List.getLast?_eq_none_iff] at hlast
          rw [hlast] at hxg
          simp at hxg
        · have hxle := sorted_getLast_max g.edges h.sorted last hlast x hxg
          have hnewlast : newest_time g = last.created_time := by
            rw [newest_time, hlast]
          omega
      obtain ⟨hE, hA2, hB2, hC2, hD2⟩ := add_step g1 e hA hB hC hD
      have htw : List.takeWhile
          (fun x => decide (x.created_time < e.created_time)) g1.edges =
          g1.edges :=
        takeWhile_all _ _ (by
          intro x hx
          simpa using hlt x hx)
      have hdw : List.dropWhile
          (fun x => decide (x.created_time < e.created_time)) g1.edges =
          [] := by
        have hsp := List.takeWhile_append_dropWhile
          (p := fun x => decide (x.created_time < e.created_time))
          (l := g1.edges)
        rw [htw] at hsp
        have hlen2 : (g1.edges ++ List.dropWhile
            (fun x => decide (x.created_time < e.created_time))
            g1.edges).length = g1.edges.length := by rw [hsp]
        simp only [List.length_append] at hlen2
        exact List.length_eq_zero.mp (by omega)
      have hE2 : (update_degrees_add (insert_edge g1 e) e).edges =
          g1.edges ++ [e] := by
        rw [hE, htw, hdw]
      refine ⟨hA2, hB2, hC2, hD2, ?_⟩
      intro x hx
      rw [hE2] at hx
      have hnewest2 : newest_time (update_degrees_add (insert_edge g1 e) e) =
          e.created_time := by
        rw [newest_time, hE2, List.getLast?_concat]
      rw [hnewest2]
      rcases List.mem_append.mp hx with hx | hx
      · rw [hg1e] at hx
        have hfalse := sorted_dropWhile_false p
          (fun a b hab hpb => by
            rw [hp] at hpb ⊢
            simp only [decide_eq_true_eq] at hpb ⊢
            omega) g.edges h.sorted x hx
        rw [hp] at hfalse
        simp only [decide_eq_false_iff_not] at hfalse
        omega
      · have hxe : x = e := List.mem_singleton.mp hx
        subst hxe
        have hws : (0 : Int) < window_seconds := by norm_num [window_seconds]
        omega
    · rw [if_neg hnew]
      obtain ⟨hE, hA2, hB2, hC2, hD2⟩ := add_step g e h.dinv h.deg_inc
        h.sum_deg h.sorted
      refine ⟨hA2, hB2, hC2, hD2, ?_⟩
      rcases hlast : g.edges.getLast? with _ | last
      · have hnil : g.edges = [] := List.getLast?_eq_none_iff.mp hlast
        have hE2 : (update_degrees_add (insert_edge g e) e).edges = [e] := by
          rw [hE, hnil]
          simp
        intro x hx
        rw [hE2] at hx
        have hxe : x = e := List.mem_singleton.mp hx
        have hn2 : newest_time (update_degrees_add (insert_edge g e) e) =
            e.created_time := by
          rw [newest_time, hE2]
          rfl
        rw [hn2, hxe]
        have hws : (0 : Int) < window_seconds := by norm_num [window_seconds]
        omega
      · have hnewlast : newest_time g = last.created_time := by
          rw [newest_time, hlast]
        have hlastq : (fun x : Edge =>
            decide (x.created_time < e.created_time)) last = false := by
          simp only [decide_eq_false_iff_not]
          rw [hnewlast] at hnew
          omega
        have hdw_ne : List.dropWhile
            (fun x : Edge => decide (x.created_time < e.created_time))
            g.edges ≠ [] := by
          intro hnil2
          have hsp := List.takeWhile_append_dropWhile
            (p := fun x : Edge => decide (x.created_time < e.created_time))
            (l := g.edges)
          rw [hnil2, List.append_nil] at hsp
          have hlmem : last ∈ g.edges := by
            obtain ⟨ys, hys⟩ := List.getLast?_eq_some_iff.mp hlast
            rw [hys]
            simp
          rw [← hsp] at hlmem
          have hq := List.mem_takeWhile_imp hlmem
          simp only [decide_eq_true_eq] at hq
          rw [hnewlast] at hnew
          omega
        have hn2 : newest_time (update_degrees_add (insert_edge g e) e) =
            newest_time g := by
          rw [newest_time, newest_time, hE,
            getLast_insert_middle _ _ _ hdw_ne,
            List.takeWhile_append_dropWhile]
        intro x hx
        rw [hE] at hx
        rw [hn2]
        rcases List.mem_append.mp hx with hx | hx
        · exact h.window x ((List.takeWhile_sublist _).subset hx)
        · rcases List.mem_cons.mp hx with hxe | hx
          · subst hxe
            have hwin := hw
            rw [within_time_window, hlast] at hwin
            simp only [decide_eq_true_eq] at hwin
            rw [hnewlast]
            omega
          · exact h.window x ((List.dropWhile_sublist _).subset hx)
  · have hrej : add_edge g e = g := by simp [add_edge, hw]
    rw [hrej]
    exact h

/-- Every graph reachable from the empty graph satisfies the invariant. -/
theorem GInv_buildGraph (es : List Edge) : GInv (buildGraph es) := by
  have hgen : ∀ (l : List Edge) (g : VenmoGraph), GInv g →
      GInv (l.foldl add_edge g) := by
    intro l
    induction l with
    | nil => intro g hg; exact hg
    | cons e rest ih =>
      intro g hg
      exact ih (add_edge g e) (GInv_add_edge g e hg)
  exact hgen es VenmoGraph.empty GInv_empty

/-! ## Consequences of the invariant for the histogram -/

theorem alGet_of_mem_nodup : ∀ (bs : List (Nat × Int)),
    (bs.map Prod.fst).Nodup → ∀ p ∈ bs, alGet bs p.1 = p.2
  | [], _, p, hp => by simp at hp
  | (k, c) :: rest, hnd, p, hp => by
    simp only [List.map_cons, List.nodup_cons] at hnd
    rcases List.mem_cons.mp hp with rfl | hp
    · simp [alGet]
    · have hne : k ≠ p.1 := by
        intro hk
        exact hnd.1 (hk ▸ List.mem_map_of_mem Prod.fst hp)
      simp only [alGet, if_neg hne]
      exact alGet_of_mem_nodup rest hnd.2 p hp

theorem DInv_bucket_nonneg (ds : List (String × Nat)) (bs : List (Nat × Int))
    (h : DInv ds bs) : ∀ p ∈ bs, 0 ≤ p.2 := by
  intro p hp
  have hnd : (bs.map Prod.fst).Nodup := by
    rw [h.keys]
    exact List.nodup_range' _ _
  rw [← alGet_of_mem_nodup bs hnd p hp, h.counts p.1]
  exact Int.natCast_nonneg _

theorem sum_if_mem : ∀ (ks : List Nat) (a : Nat), ks.Nodup → a ∈ ks →
    ((ks.map (fun k => if a = k then (1 : Nat) else 0)).sum = 1)
  | [], a, _, ha => by simp at ha
  | k :: ks, a, hnd, ha => by
    simp only [List.nodup_cons] at hnd
    rcases List.mem_cons.mp ha with rfl | ha
    · simp only [List.map_cons, List.sum_cons, if_pos rfl]
      have hz : ((ks.map (fun k => if a = k then (1 : Nat) else 0)).sum = 0) :=
        List.sum_eq_zero (by
          intro x hx
          rcases List.mem_map.mp hx with ⟨b, hb, rfl⟩
          have : a ≠ b := fun hab => hnd.1 (hab ▸ hb)
          simp [this])
      rw [hz]
      simp
    · have hne : a ≠ k := fun hak => hnd.1 (hak ▸ ha)
      simp only [List.map_cons, List.sum_cons, if_neg hne]
      rw [sum_if_mem ks a hnd.2 ha]

theorem sum_map_add_nat (ks : List Nat) (f g : Nat → Nat) :
    (ks.map (fun k => f k + g k)).sum = (ks.map f).sum + (ks.map g).sum := by
  induction ks with
  | nil => rfl
  | cons k ks ih =>
    simp only [List.map_cons, List.sum_cons, ih]
    omega

theorem keys_sum_countDeg : ∀ (ds : List (String × Nat)) (ks : List Nat),
    ks.Nodup → (∀ p ∈ ds, p.2 ∈ ks) →
    (ks.map (fun k => countDeg ds k)).sum = ds.length
  | [], ks, _, _ => by
    refine List.sum_eq_zero ?_
    intro x hx
    rcases List.mem_map.mp hx with ⟨b, _, rfl⟩
    rfl
  | (q, y) :: rest, ks, hnd, hmem => by
    have hcd : ∀ k, countDeg ((q, y) :: rest) k =
        (if y = k then 1 else 0) + countDeg rest k := fun k =>
      countDeg_cons q y rest k
    calc (ks.map (fun k => countDeg ((q, y) :: rest) k)).sum
        = (ks.map (fun k => (if y = k then 1 else 0) + countDeg rest k)).sum :=
          by rw [List.map_congr_left (fun a _ => hcd a)]
      _ = (ks.map (fun k => if y = k then (1 : Nat) else 0)).sum +
          (ks.map (fun k => countDeg rest k)).sum :=
          sum_map_add_nat ks _ _
      _ = 1 + rest.length := by
          rw [sum_if_mem ks y hnd (hmem (q, y) (List.mem_cons_self _ _)),
            keys_sum_countDeg rest ks hnd
              (fun p hp => hmem p (List.mem_cons_of_mem _ hp))]
      _ = ((q, y) :: rest).length := by simp [Nat.add_comm]

theorem sum_cast_list (ks : List Nat) (f : Nat → Nat) :
    ((ks.map (fun k => ((f k : Nat) : Int))).sum) = ((ks.map f).sum : Int) := by
  induction ks with
  | nil => rfl
  | cons k ks ih => simp [ih]

theorem snd_sum_eq_keys_sum : ∀ bs : List (Nat × Int),
    (bs.map Prod.fst).Nodup →
    (bs.map Prod.snd).sum = ((bs.map Prod.fst).map (alGet bs)).sum
  | [], _ => rfl
  | (k, c) :: rest, hnd => by
    simp only [List.map_cons, List.nodup_cons] at hnd ⊢
    simp only [List.sum_cons]
    have h1 : alGet ((k, c) :: rest) k = c := by simp [alGet]
    have h2 : ∀ k' ∈ rest.map Prod.fst,
        alGet ((k, c) :: rest) k' = alGet rest k' := by
      intro k' hk'
      have : k ≠ k' := fun hk => hnd.1 (hk ▸ hk')
      simp [alGet, this]
    rw [h1, List.map_congr_left h2, ← snd_sum_eq_keys_sum rest hnd.2]

theorem DInv_bucket_sum (ds : List (String × Nat)) (bs : List (Nat × Int))
    (h : DInv ds bs) : (bs.map Prod.snd).sum = (ds.length : Int) := by
  have hnd : (bs.map Prod.fst).Nodup := by
    rw [h.keys]
    exact List.nodup_range' _ _
  rw [snd_sum_eq_keys_sum bs hnd]
  have hcast : ((bs.map Prod.fst).map (alGet bs)).sum =
      ((bs.map Prod.fst).map (fun k => countDeg ds k)).sum := by
    rw [List.map_congr_left (fun k _ => h.counts k)]
    exact sum_cast_list (bs.map Prod.fst) (fun k => countDeg ds k)
  rw [hcast, keys_sum_countDeg ds (bs.map Prod.fst) hnd]
  intro p hp
  have hb := h.bounds p hp
  rw [h.keys]
  exact List.mem_range'_1.mpr ⟨hb.1, by omega⟩

/-! ## Claims C2, C3, C4 -/

/-- C2 (amended): for every reachable graph state the histogram counts sum to
the ledger size and no bucket holds a *negative* count; buckets whose count
has been decremented back to `0` do persist in the histogram (see the
counterexample above), so "non-positive" must weaken to "negative". -/
theorem histogram_consistency (es : List Edge) :
    ((buildGraph es).degree_buckets.map Prod.snd).sum =
      ((buildGraph es).degrees.length : Int) ∧
    ∀ p ∈ (buildGraph es).degree_buckets, 0 ≤ p.2 := by
  have h := GInv_buildGraph es
  exact ⟨DInv_bucket_sum _ _ h.dinv, DInv_bucket_nonneg _ _ h.dinv⟩

/-- C3: for every reachable graph state the ledger degrees sum to twice the
number of edges in the window (self-loops included: each passes through the
per-endpoint update twice), and every vertex present in the ledger has
degree ≥ 1. -/
theorem sum_of_degrees_invariant (es : List Edge) :
    sumDeg (buildGraph es).degrees = 2 * (buildGraph es).edges.length ∧
    ∀ p ∈ (buildGraph es).degrees, 1 ≤ p.2 := by
  have h := GInv_buildGraph es
  exact ⟨h.sum_deg, fun p hp => (h.dinv.bounds p hp).1⟩

/-- C4: after any sequence of `add_edge` calls the edge sequence is sorted
non-decreasing by timestamp and every held edge is strictly newer than
`newest_time() - 60s`. -/
theorem window_ordering_invariant (es : List Edge) :
    edgesSorted (buildGraph es).edges ∧
    ∀ e ∈ (buildGraph es).edges,
      newest_time (buildGraph es) - window_seconds < e.created_time :=
  ⟨(GInv_buildGraph es).sorted, (GInv_buildGraph es).window⟩

/-! ## Claim C9: out-of-range rank queries -/

theorem get_degree_aux_none : ∀ (bs : List (Nat × Int)) (bi : Int) (i : Nat),
    (∀ p ∈ bs, 0 ≤ p.2) → bi + (bs.map Prod.snd).sum ≤ (i : Int) →
    get_degree_aux bs bi i = none
  | [], _, _, _, _ => rfl
  | (d, c) :: rest, bi, i, hpos, hle => by
    have hrest : (0 : Int) ≤ (rest.map Prod.snd).sum :=
      List.sum_nonneg (by
        intro x hx
        rcases List.mem_map.mp hx with ⟨p, hp, rfl⟩
        exact hpos p (List.mem_cons_of_mem _ hp))
    simp only [List.map_cons, List.sum_cons] at hle
    rw [get_degree_aux, if_neg (by omega)]
    exact get_degree_aux_none rest (bi + c) i
      (fun p hp => hpos p (List.mem_cons_of_mem _ hp)) (by omega)

/-- C9: querying `get_degree` at a rank at or beyond the ledger size (any
rank at all on the empty graph) falls off the end of the histogram scan and
returns the no-data value `None`. -/
theorem get_degree_out_of_range (es : List Edge) (i : Nat)
    (hi : (buildGraph es).degrees.length ≤ i) :
    get_degree (buildGraph es) i = none := by
  have h := GInv_buildGraph es
  have hsum := DInv_bucket_sum _ _ h.dinv
  apply get_degree_aux_none
  · exact DInv_bucket_nonneg _ _ h.dinv
  · rw [hsum]
    omega

/-- C9 witness: rank 0 on the empty graph. -/
theorem get_degree_out_of_range_witness :
    get_degree (buildGraph []) 0 = none :=
  get_degree_out_of_range [] 0 (by decide)

/-! ## The histogram scan selects from the sorted degree multiset (claim C1) -/

/-- The degree multiset laid out bucket by bucket in iteration order. -/
def histList (bs : List (Nat × Int)) : List Nat :=
  (bs.map (fun p => List.replicate p.2.toNat p.1)).flatten

theorem histList_nil : histList [] = [] := rfl

theorem histList_cons (d : Nat) (c : Int) (rest : List (Nat × Int)) :
    histList ((d, c) :: rest) = List.replicate c.toNat d ++ histList rest := by
  simp [histList]

/-- The `get_degree` scan reads position `i - bucket_index` of the laid-out
histogram. -/
theorem get_degree_aux_eq : ∀ (bs : List (Nat × Int)) (bi : Int) (i : Nat),
    (∀ p ∈ bs, 0 ≤ p.2) → 0 ≤ bi → bi ≤ (i : Int) →
    get_degree_aux bs bi i = (histList bs)[i - bi.toNat]?
  | [], bi, i, _, _, _ => by simp [get_degree_aux, histList]
  | (d, c) :: rest, bi, i, hpos, hbi, hle => by
    have hc : 0 ≤ c := hpos (d, c) (List.mem_cons_self _ _)
    rw [get_degree_aux, histList_cons]
    by_cases hlt : (i : Int) < bi + c
    · rw [if_pos hlt]
      have hidx : i - bi.toNat < (List.replicate c.toNat d).length := by
        simp only [List.length_replicate]
        omega
      rw [List.getElem?_append_left hidx, List.getElem?_replicate,
        if_pos (by simpa using hidx)]
    · rw [if_neg hlt]
      have hrec := get_degree_aux_eq rest (bi + c) i
        (fun p hp => hpos p (List.mem_cons_of_mem _ hp)) (by omega) (by omega)
      rw [hrec, List.getElem?_append_right (by simp; omega)]
      congr 1
      simp only [List.length_replicate]
      omega

/-- With ascending bucket keys the laid-out histogram is sorted. -/
theorem histList_sorted : ∀ (bs : List (Nat × Int)) (m : Nat),
    bs.map Prod.fst = List.range' m bs.length →
    List.Sorted (· ≤ ·) (histList bs) ∧ ∀ x ∈ histList bs, m ≤ x
  | [], m, _ => by simp [histList, List.Sorted]
  | (d, c) :: rest, m, hkeys => by
    simp only [List.map_cons, List.length_cons, List.range'_succ] at hkeys
    have hd : d = m := (List.cons_eq_cons.mp hkeys).1
    have hrest := (List.cons_eq_cons.mp hkeys).2
    obtain ⟨hs, hm⟩ := histList_sorted rest (m + 1) hrest
    subst hd
    rw [histList_cons]
    constructor
    · rw [List.Sorted, List.pairwise_append]
      refine ⟨List.pairwise_replicate.mpr (Or.inr (le_refl d)), hs, ?_⟩
      intro x hx y hy
      have hxd : x = d := List.eq_of_mem_replicate hx
      subst hxd
      have := hm y hy
      omega
    · intro x hx
      rcases List.mem_append.mp hx with hx | hx
      · have : x = d := List.eq_of_mem_replicate hx
        omega
      · have := hm x hx
        omega

theorem alGet_not_mem (bs : List (Nat × Int)) (k : Nat)
    (h : k ∉ bs.map Prod.fst) : alGet bs k = 0 := by
  induction bs with
  | nil => rfl
  | cons p rest ih =>
    simp only [List.map_cons, List.mem_cons, not_or] at h
    simp only [alGet]
    rw [if_neg (fun hk : p.1 = k => h.1 hk.symm)]
    exact ih h.2

/-- Multiplicities in the laid-out histogram are the bucket counts. -/
theorem histList_count : ∀ (bs : List (Nat × Int)),
    (bs.map Prod.fst).Nodup → ∀ a, (histList bs).count a = (alGet bs a).toNat
  | [], _, a => by simp [histList, alGet]
  | (d, c) :: rest, hnd, a => by
    simp only [List.map_cons, List.nodup_cons] at hnd
    rw [histList_cons, List.count_append, List.count_replicate,
      histList_count rest hnd.2 a]
    rcases eq_or_ne d a with rfl | hda
    · have : alGet rest d = 0 := alGet_not_mem rest d hnd.1
      simp [alGet, this]
    · simp [alGet, hda, Ne.symm hda]

theorem count_map_snd : ∀ (ds : List (String × Nat)) (a : Nat),
    (ds.map Prod.snd).count a = countDeg ds a
  | [], a => rfl
  | (q, y) :: rest, a => by
    rw [List.map_cons, List.count_cons, countDeg_cons, count_map_snd rest a]
    rcases eq_or_ne y a with rfl | hya
    · simp [Nat.add_comm]
    · simp [hya, Nat.add_comm]

/-- Under the invariant, the laid-out histogram *is* the ascending sort of the
degree multiset. -/
theorem histList_eq_sort (g : VenmoGraph) (h : GInv g) :
    histList g.degree_buckets =
      List.insertionSort (· ≤ ·) (degreeList g) := by
  have hnd : (g.degree_buckets.map Prod.fst).Nodup := by
    rw [h.dinv.keys]
    exact List.nodup_range' _ _
  have hperm : (histList g.degree_buckets).Perm (degreeList g) := by
    rw [List.perm_iff_count]
    intro a
    rw [histList_count _ hnd a]
    rw [degreeList, count_map_snd g.degrees a]
    rw [h.dinv.counts a]
    simp
  have hperm2 : (histList g.degree_buckets).Perm
      (List.insertionSort (· ≤ ·) (degreeList g)) :=
    hperm.trans (List.perm_insertionSort (· ≤ ·) (degreeList g)).symm
  exact List.eq_of_perm_of_sorted hperm2
    (histList_sorted g.degree_buckets 1 h.dinv.keys).1
    (List.sorted_insertionSort (· ≤ ·) (degreeList g))

/-- `get_degree` under the invariant: rank `i` of the sorted degree
multiset. -/
theorem get_degree_eq (g : VenmoGraph) (h : GInv g) (i : Nat) :
    get_degree g i =
      (List.insertionSort (· ≤ ·) (degreeList g))[i]? := by
  rw [get_degree, get_degree_aux_eq g.degree_buckets 0 i
    (DInv_bucket_nonneg _ _ h.dinv) (le_refl 0) (by omega)]
  rw [histList_eq_sort g h]
  norm_num

/-- C1 (amended): for every reachable graph state, `get_median_degree`
returns exactly the spec's median of the degree multiset — the ascending
multiset's rank `(n-1)/2` degree for odd `n`, the average of ranks
`n/2 - 1` and `n/2` for even `n`, and the no-data sentinel for the empty
ledger.  (In particular the degree multiset `{1,1,2}` yields `1.0`, not `2`
as the claim's instance asserts, and `{1,1,1,2}` yields `1.0`.) -/
theorem median_degree_correct (es : List Edge) :
    get_median_degree (buildGraph es) =
      specMedian (degreeList (buildGraph es)) := by
  have hG : GInv (buildGraph es) := GInv_buildGraph es
  generalize hgg : buildGraph es = g at hG ⊢
  have hlen : (degreeList g).length = g.degrees.length := by simp [degreeList]
  have hslen : (List.insertionSort (· ≤ ·) (degreeList g)).length =
      g.degrees.length := by
    rw [(List.perm_insertionSort (· ≤ ·) (degreeList g)).length_eq, hlen]
  have hget := get_degree_eq g hG
  by_cases h0 : g.degrees.length = 0
  · simp [get_median_degree, specMedian, h0, hlen]
  · by_cases hpar : g.degrees.length % 2 = 0
    · obtain ⟨a, ha⟩ : ∃ a, (List.insertionSort (· ≤ ·)
          (degreeList g))[g.degrees.length / 2]? = some a := by
        rw [List.getElem?_eq_getElem (by rw [hslen]; omega)]
        exact ⟨_, rfl⟩
      obtain ⟨b, hb⟩ : ∃ b, (List.insertionSort (· ≤ ·)
          (degreeList g))[g.degrees.length / 2 - 1]? = some b := by
        rw [List.getElem?_eq_getElem (by rw [hslen]; omega)]
        exact ⟨_, rfl⟩
      have hga := hget (g.degrees.length / 2)
      rw [ha] at hga
      have hgb := hget (g.degrees.length / 2 - 1)
      rw [hb] at hgb
      simp only [get_median_degree, specMedian, hlen]
      rw [if_neg h0, if_neg h0, if_pos hpar,
        if_neg (by omega : ¬ g.degrees.length % 2 = 1)]
      rw [hga, hgb]
      dsimp only
      rw [List.getD_eq_getElem?_getD, List.getD_eq_getElem?_getD, ha, hb]
      simp [add_comm]
    · obtain ⟨a, ha⟩ : ∃ a, (List.insertionSort (· ≤ ·)
          (degreeList g))[(g.degrees.length - 1) / 2]? = some a := by
        rw [List.getElem?_eq_getElem (by rw [hslen]; omega)]
        exact ⟨_, rfl⟩
      have hga := hget ((g.degrees.length - 1) / 2)
      rw [ha] at hga
      simp only [get_median_degree, specMedian, hlen]
      rw [if_neg h0, if_neg h0, if_neg hpar,
        if_pos (by omega : g.degrees.length % 2 = 1)]
      rw [hga]
      dsimp only
      rw [List.getD_eq_getElem?_getD, ha]
      simp
